import Mathlib

/-!
Verification of the client-side data service of the kosovo_customs_explorer
repository (src/lib/database.ts and src/unnamed/part_007).

The embedding below models the TypeScript data service shallowly:
* records are Lean structures; JS numbers that only flow through the code as
  opaque payloads are modelled as integers;
* JS strings are Lean strings, with slicing/length/startsWith modelled on the
  underlying character list (the codes and descriptions in this dataset are
  plain ASCII, where JS UTF-16 units coincide with characters);
* the mutable Map/array passes of the source are modelled as folds over
  association lists, and the recursive materialisation of the tree (node
  references in JS) is modelled with an explicit fuel argument whose adequacy
  is proved;
* JS Array.prototype.sort with a comparator (stable since ES2019) is modelled
  by the stable List.insertionSort on the comparator's induced order;
* the Dexie store is a list of records whose primary key is the code field,
  index traversals are in ascending code order, and the failure of a storage
  read, an index build, or the bulk-write transaction is modelled by explicit
  failure flags (Dexie transactions roll back on unhandled errors, so a failed
  transaction leaves the store unchanged);
* the FlexSearch description index is external to the repository, so the hit
  list a query produces is a parameter of the search model.
-/

namespace CustomsExplorer

/-- A tariff record, after normalisation (src/lib/database.ts, CustomsRecord
interface).  Duty-rate payloads are opaque to all modelled operations and are
carried as integers.  rootCode and highlightedDescription are the derived
runtime fields. -/
structure CustomsRecord where
  code : String
  description : String
  percentage : Int
  cefta : Int
  msa : Int
  trmtl : Int
  tvsh : Int
  excise : Int
  validFrom : String
  uomCode : Option String
  rootCode : Option String
  highlightedDescription : Option String
  fileUrl : Option String
  importMeasure : Option String
  exportMeasure : Option String
deriving DecidableEq, Repr

/-- Helper building a record with the given code and description and neutral
values everywhere else; used for concrete test inputs. -/
def mkRec (code description : String) : CustomsRecord :=
  ⟨code, description, 0, 0, 0, 0, 0, 0, "", none, none, none, none, none, none⟩

/-- JS s.slice(0, n): the first n characters of s. -/
def strTake (s : String) (n : Nat) : String :=
  ⟨s.data.take n⟩

/-- JS s.length (character count). -/
def strLen (s : String) : Nat :=
  s.data.length

/-- JS s.startsWith(p). -/
def strStarts (s p : String) : Bool :=
  s.data.take p.data.length = p.data

/-- JS s.trim(): strip leading and trailing whitespace. -/
def strTrim (s : String) : String :=
  ⟨((s.data.dropWhile Char.isWhitespace).reverse.dropWhile Char.isWhitespace).reverse⟩

/-- JS string comparison a < b, lexicographic on the character sequence. -/
def strLT (a b : String) : Prop :=
  a.data < b.data

instance : DecidableRel strLT := fun a b =>
  inferInstanceAs (Decidable (a.data < b.data))

/-- compareRecords (src/lib/database.ts:55-65): compare by code, then by
description, 0 on a full tie.  Also sortChildren of src/unnamed/part_007. -/
def compareRecords (a b : CustomsRecord) : Int :=
  if strLT a.code b.code then -1
  else if strLT b.code a.code then 1
  else if strLT a.description b.description then -1
  else if strLT b.description a.description then 1
  else 0

/-- The non-strict order induced by the compareRecords comparator; a stable
sort under this order is what Array.prototype.sort(compareRecords) computes. -/
def recLE (a b : CustomsRecord) : Prop :=
  compareRecords a b ≤ 0

instance : DecidableRel recLE := fun a b =>
  inferInstanceAs (Decidable (compareRecords a b ≤ 0))

/-- findParentCode's loop (src/lib/database.ts:67-74): try i = n, n-1, ..., 1
as prefix lengths of code. -/
def findParentAux (code : String) (codeSet : List String) : Nat → Option String
  | 0 => none
  | n + 1 =>
    let cand := strTake code (n + 1)
    if codeSet.contains cand then some cand else findParentAux code codeSet n

/-- findParentCode (src/lib/database.ts:67-74): the longest proper prefix of
code that occurs in codeSet, or none. -/
def findParentCode (code : String) (codeSet : List String) : Option String :=
  findParentAux code codeSet (strLen code - 1)

/-! ## buildTreeFromList (src/lib/database.ts:240-264, src/unnamed/part_007:387-411)

The JS function makes one pass creating a node per code (a Map, so a later
record with the same code overwrites the earlier node), a second pass pushing
each row's node into the subRows bucket of its parent node or into the root
list, and a final pass sorting every bucket and the root list.  Here the
buckets are an association list from parent code to the pushed records, in
push order; the nested nodes are materialised afterwards with fuel. -/

/-- Lookup of a JS Map built by setting every record under its code in list
order: the last record with the given code wins. -/
def lastWithCode (l : List CustomsRecord) (c : String) : Option CustomsRecord :=
  l.foldl (fun acc r => if r.code = c then some r else acc) none

/-- The code set of the input list (presentCodes in the source). -/
def presentCodes (l : List CustomsRecord) : List String :=
  l.map (·.code)

/-- The parent code resolution used by buildTreeFromList for a row of l. -/
def parentOf (l : List CustomsRecord) (r : CustomsRecord) : Option String :=
  findParentCode r.code (presentCodes l)

/-- Append a record to the bucket of the given key, creating the bucket at the
end of the association list when the key is new (JS Map insertion order). -/
def pushBucket (bs : List (String × List CustomsRecord)) (c : String)
    (r : CustomsRecord) : List (String × List CustomsRecord) :=
  match bs with
  | [] => [(c, [r])]
  | (c', rs) :: rest =>
    if c' = c then (c', rs ++ [r]) :: rest else (c', rs) :: pushBucket rest c r

/-- The contents of the bucket of key c (empty when absent). -/
def bucketOf (bs : List (String × List CustomsRecord)) (c : String) :
    List CustomsRecord :=
  match bs with
  | [] => []
  | (c', rs) :: rest => if c' = c then rs else bucketOf rest c

/-- State of the attaching pass of buildTreeFromList: the subRows buckets,
keyed by parent code, and the root list. -/
structure BuildState where
  buckets : List (String × List CustomsRecord)
  roots : List CustomsRecord
deriving Repr

/-- One step of the attaching pass (src/lib/database.ts:249-257): the node of
the row (the map entry for its code) is pushed into its parent's bucket when a
parent resolves inside the list, and into the root list otherwise. -/
def attachStep (l : List CustomsRecord) (st : BuildState) (r : CustomsRecord) :
    BuildState :=
  let node := (lastWithCode l r.code).getD r
  match parentOf l r with
  | some p =>
    if (presentCodes l).contains p then
      { st with buckets := pushBucket st.buckets p node }
    else
      { st with roots := st.roots ++ [node] }
  | none => { st with roots := st.roots ++ [node] }

/-- The attaching pass over the whole list. -/
def attachPass (l : List CustomsRecord) : BuildState :=
  l.foldl (attachStep l) ⟨[], []⟩

/-- A tree node: a record plus its subRows (CustomsTreeNode in the source). -/
inductive CustomsTreeNode where
  | mk (row : CustomsRecord) (subRows : List CustomsTreeNode)

/-- The record carried by a node. -/
def CustomsTreeNode.row : CustomsTreeNode → CustomsRecord
  | .mk r _ => r

/-- The children list of a node. -/
def CustomsTreeNode.subRows : CustomsTreeNode → List CustomsTreeNode
  | .mk _ s => s

/-- Sort a subRows bucket the way the source does: only arrays with more than
one element are passed to Array.prototype.sort (which changes nothing for the
others). -/
def sortBucket (rs : List CustomsRecord) : List CustomsRecord :=
  if 1 < rs.length then List.insertionSort recLE rs else rs

/-- Materialise the node of a record from the buckets, with fuel bounding the
recursion depth (the JS version nests by object reference; children live in
the bucket of their parent's code). -/
def mkNode (bs : List (String × List CustomsRecord)) :
    Nat → CustomsRecord → CustomsTreeNode
  | 0, r => .mk r []
  | f + 1, r => .mk r ((sortBucket (bucketOf bs r.code)).map (mkNode bs f))

/-- Total code length of the list; one more than this is enough fuel for every
materialisation, since a child's code is always strictly longer than its
parent's. -/
def codeLenSum (l : List CustomsRecord) : Nat :=
  (l.map (fun r => strLen r.code)).sum

/-- buildTreeFromList (src/lib/database.ts:240-264): group rows under the node
of their resolved parent, sort every subRows bucket and the root list with
compareRecords, and return the root nodes. -/
def buildTreeFromList (l : List CustomsRecord) : List CustomsTreeNode :=
  let st := attachPass l
  (List.insertionSort recLE st.roots).map (mkNode st.buckets (codeLenSum l + 1))

mutual

/-- All records of a tree, root first (flattening through subRows). -/
def flattenTree : CustomsTreeNode → List CustomsRecord
  | .mk r cs => r :: flattenForest cs

/-- All records of a forest. -/
def flattenForest : List CustomsTreeNode → List CustomsRecord
  | [] => []
  | t :: ts => flattenTree t ++ flattenForest ts

end

mutual

/-- All nodes of a tree, root first. -/
def nodesOfTree : CustomsTreeNode → List CustomsTreeNode
  | .mk r cs => .mk r cs :: nodesOfForest cs

/-- All nodes of a forest. -/
def nodesOfForest : List CustomsTreeNode → List CustomsTreeNode
  | [] => []
  | t :: ts => nodesOfTree t ++ nodesOfForest ts

end

/-! ## Basic lemmas about the hierarchy primitives -/

theorem strLen_strTake (s : String) (n : Nat) :
    strLen (strTake s n) = min n (strLen s) :=
  List.length_take n s.data

theorem findParentAux_some {code : String} {cs : List String} {n : Nat} {c : String}
    (h : findParentAux code cs n = some c) :
    c ∈ cs ∧ ∃ i, 1 ≤ i ∧ i ≤ n ∧ c = strTake code i := by
  induction n with
  | zero => simp [findParentAux] at h
  | succ n ih =>
    rw [findParentAux] at h
    by_cases hc : cs.contains (strTake code (n + 1))
    · simp only [hc, if_pos] at h
      have h' : strTake code (n + 1) = c := Option.some.inj h
      refine ⟨?_, n + 1, Nat.le_add_left 1 n, Nat.le_refl _, h'.symm⟩
      rw [← h']
      exact List.mem_of_elem_eq_true hc
    · simp only [hc, if_neg, Bool.false_eq_true, not_false_iff] at h
      obtain ⟨h1, i, h2, h3, h4⟩ := ih h
      exact ⟨h1, i, h2, Nat.le_succ_of_le h3, h4⟩

theorem parentOf_some {l : List CustomsRecord} {r : CustomsRecord} {c : String}
    (h : parentOf l r = some c) :
    c ∈ presentCodes l ∧ strLen c < strLen r.code := by
  obtain ⟨h1, i, h2, h3, h4⟩ := findParentAux_some h
  refine ⟨h1, ?_⟩
  subst h4
  rw [strLen_strTake]
  omega

theorem parentOf_of_len_zero {l : List CustomsRecord} {r : CustomsRecord}
    (h : strLen r.code = 0) : parentOf l r = none := by
  unfold parentOf findParentCode
  rw [h]
  rfl

theorem lastWithCode_go {l : List CustomsRecord} {c : String} :
    ∀ acc : Option CustomsRecord,
      (∀ x ∈ l, x.code ≠ c) →
      l.foldl (fun acc r => if r.code = c then some r else acc) acc = acc := by
  induction l with
  | nil => intro acc _; rfl
  | cons x xs ih =>
    intro acc h
    rw [List.foldl_cons]
    rw [if_neg (h x (List.mem_cons_self x xs))]
    exact ih acc fun y hy => h y (List.mem_cons_of_mem x hy)

theorem lastWithCode_of_forall_ne {l : List CustomsRecord} {c : String}
    (h : ∀ x ∈ l, x.code ≠ c) : lastWithCode l c = none :=
  lastWithCode_go none h

theorem lastWithCode_isSome_go {c : String} :
    ∀ (l : List CustomsRecord) (acc : Option CustomsRecord),
      (∃ r ∈ l, r.code = c) →
      ∃ y, l.foldl (fun acc r => if r.code = c then some r else acc) acc = some y ∧
        y ∈ l ∧ y.code = c := by
  intro l
  induction l with
  | nil => rintro acc ⟨r, hr, -⟩; cases hr
  | cons x xs ih =>
    rintro acc ⟨r, hr, hc⟩
    rw [List.foldl_cons]
    by_cases hinxs : ∃ z ∈ xs, z.code = c
    · obtain ⟨y, hy1, hy2, hy3⟩ := ih (if x.code = c then some x else acc) hinxs
      exact ⟨y, hy1, List.mem_cons_of_mem x hy2, hy3⟩
    · push_neg at hinxs
      have hx : r = x := by
        rcases List.mem_cons.mp hr with h1 | h1
        · exact h1
        · exact absurd hc (hinxs r h1)
      subst hx
      rw [lastWithCode_go _ hinxs, if_pos hc]
      exact ⟨r, rfl, List.mem_cons_self r xs, hc⟩

theorem lastWithCode_mem {l : List CustomsRecord} {c : String} (r : CustomsRecord)
    (hr : r ∈ l) (hc : r.code = c) :
    ∃ y, lastWithCode l c = some y ∧ y ∈ l ∧ y.code = c :=
  lastWithCode_isSome_go l none ⟨r, hr, hc⟩

theorem lastWithCode_some_mem {l : List CustomsRecord} {c : String} {y : CustomsRecord}
    (h : lastWithCode l c = some y) : y ∈ l ∧ y.code = c := by
  by_cases hin : ∃ r ∈ l, r.code = c
  · obtain ⟨r, hr, hc⟩ := hin
    obtain ⟨y', hy1, hy2, hy3⟩ := lastWithCode_mem r hr hc
    rw [h] at hy1
    cases hy1
    exact ⟨hy2, hy3⟩
  · push_neg at hin
    rw [lastWithCode_of_forall_ne hin] at h
    cases h

/-- Under distinct codes, the Map entry of a member's code is the member. -/
theorem lastWithCode_self {l : List CustomsRecord} (hnd : (l.map (·.code)).Nodup)
    {r : CustomsRecord} (hr : r ∈ l) : lastWithCode l r.code = some r := by
  obtain ⟨y, hy1, hy2, hy3⟩ := lastWithCode_mem r hr rfl
  have : y = r := List.inj_on_of_nodup_map hnd hy2 hr hy3
  rw [hy1, this]

/-! ## Fold characterisation of the attaching pass -/

/-- The node pushed for a row: the Map entry of its code. -/
def nodeOf (l : List CustomsRecord) (r : CustomsRecord) : CustomsRecord :=
  (lastWithCode l r.code).getD r

theorem bucketOf_pushBucket (bs : List (String × List CustomsRecord)) (c c' : String)
    (r : CustomsRecord) :
    bucketOf (pushBucket bs c r) c' =
      if c = c' then bucketOf bs c' ++ [r] else bucketOf bs c' := by
  induction bs with
  | nil =>
    by_cases h : c = c' <;> simp [pushBucket, bucketOf, h]
  | cons head rest ih =>
    obtain ⟨c₀, rs⟩ := head
    simp only [pushBucket]
    by_cases h0 : c₀ = c
    · rw [if_pos h0]
      subst h0
      by_cases h1 : c₀ = c'
      · simp only [bucketOf, if_pos h1]
      · simp only [bucketOf, if_neg h1]
    · rw [if_neg h0]
      simp only [bucketOf]
      by_cases h1 : c₀ = c'
      · have hcc : ¬ c = c' := by
          intro h
          exact h0 (h1.trans h.symm)
        rw [if_pos h1, if_neg hcc, if_pos h1]
      · rw [if_neg h1, if_neg h1, ih]

theorem attach_foldl_roots (l : List CustomsRecord) :
    ∀ (rest : List CustomsRecord) (st : BuildState),
      (rest.foldl (attachStep l) st).roots =
        st.roots ++ (rest.filter (fun r => (parentOf l r).isNone)).map (nodeOf l) := by
  intro rest
  induction rest with
  | nil => intro st; simp
  | cons r rest ih =>
    intro st
    rw [List.foldl_cons, ih]
    rcases hp : parentOf l r with _ | p
    · simp only [attachStep, hp, List.filter_cons]
      simp [nodeOf]
    · have hmem : p ∈ presentCodes l := (parentOf_some hp).1
      have hcont : (presentCodes l).contains p := List.elem_eq_true_of_mem hmem
      simp only [attachStep, hp, hcont, if_pos, List.filter_cons]
      simp

theorem attach_foldl_buckets (l : List CustomsRecord) (c : String) :
    ∀ (rest : List CustomsRecord) (st : BuildState),
      bucketOf (rest.foldl (attachStep l) st).buckets c =
        bucketOf st.buckets c ++
          (rest.filter (fun r => parentOf l r = some c)).map (nodeOf l) := by
  intro rest
  induction rest with
  | nil => intro st; simp
  | cons r rest ih =>
    intro st
    rw [List.foldl_cons, ih]
    rcases hp : parentOf l r with _ | p
    · simp only [attachStep, hp, List.filter_cons]
      simp
    · have hmem : p ∈ presentCodes l := (parentOf_some hp).1
      have hcont : (presentCodes l).contains p := List.elem_eq_true_of_mem hmem
      simp only [attachStep, hp, hcont, if_pos, List.filter_cons]
      rw [bucketOf_pushBucket]
      by_cases hpc : p = c
      · subst hpc
        simp [nodeOf]
      · have : ¬ (some p = some c) := fun h => hpc (Option.some.inj h)
        simp [hpc, this]

/-- The bucket of key c after the attaching pass, in terms of the input. -/
theorem attachPass_bucketOf (l : List CustomsRecord) (c : String) :
    bucketOf (attachPass l).buckets c =
      (l.filter (fun r => parentOf l r = some c)).map (nodeOf l) := by
  rw [attachPass, attach_foldl_buckets]
  rfl

/-- The root list after the attaching pass, in terms of the input. -/
theorem attachPass_roots (l : List CustomsRecord) :
    (attachPass l).roots =
      (l.filter (fun r => (parentOf l r).isNone)).map (nodeOf l) := by
  rw [attachPass, attach_foldl_roots]
  rfl

/-- Under distinct codes, the pushed node of a member is the member itself. -/
theorem nodeOf_eq_self {l : List CustomsRecord} (hnd : (l.map (·.code)).Nodup)
    {r : CustomsRecord} (hr : r ∈ l) : nodeOf l r = r := by
  rw [nodeOf, lastWithCode_self hnd hr]
  rfl

theorem map_nodeOf_filter {l : List CustomsRecord} (hnd : (l.map (·.code)).Nodup)
    (p : CustomsRecord → Bool) :
    (l.filter p).map (nodeOf l) = l.filter p := by
  rw [List.map_congr_left (fun r hr => nodeOf_eq_self hnd (List.mem_of_mem_filter hr))]
  exact List.map_id _

/-! ## Subtrees and ancestor chains -/

/-- The records of the subtree below r (r included), as laid out by the
buckets, with fuel. -/
def subtreeRecs (bs : List (String × List CustomsRecord)) :
    Nat → CustomsRecord → List CustomsRecord
  | 0, r => [r]
  | f + 1, r => r :: (bucketOf bs r.code).flatMap (subtreeRecs bs f)

/-- The ancestor chain of a record: itself, then the Map entry of its resolved
parent code, and so on, with fuel. -/
def chainF (l : List CustomsRecord) : Nat → CustomsRecord → List CustomsRecord
  | 0, q => [q]
  | f + 1, q =>
    q ::
      (match parentOf l q with
       | none => []
       | some c =>
         match lastWithCode l c with
         | none => []
         | some p => chainF l f p)

/-- The ancestor chain with enough fuel (parent codes are strictly shorter). -/
def chainOf (l : List CustomsRecord) (q : CustomsRecord) : List CustomsRecord :=
  chainF l (strLen q.code) q

theorem codeLen_le_sum {l : List CustomsRecord} {r : CustomsRecord} (hr : r ∈ l) :
    strLen r.code ≤ codeLenSum l :=
  List.single_le_sum (fun x _ => Nat.zero_le x) _
    (List.mem_map_of_mem (fun r => strLen r.code) hr)

theorem self_mem_chainF (l : List CustomsRecord) (f : Nat) (q : CustomsRecord) :
    q ∈ chainF l f q := by
  cases f <;> exact List.mem_cons_self _ _

theorem chainF_subset {l : List CustomsRecord} :
    ∀ {f : Nat} {q x : CustomsRecord}, q ∈ l → x ∈ chainF l f q → x ∈ l := by
  intro f
  induction f with
  | zero =>
    intro q x hq hx
    rw [chainF] at hx
    rcases List.mem_singleton.mp hx with h
    exact h ▸ hq
  | succ f ih =>
    intro q x hq hx
    rw [chainF] at hx
    rcases List.mem_cons.mp hx with h | h
    · exact h ▸ hq
    · rcases hp : parentOf l q with _ | c
      · simp only [hp] at h; cases h
      · simp only [hp] at h
        rcases hw : lastWithCode l c with _ | p
        · simp only [hw] at h; cases h
        · simp only [hw] at h
          exact ih (lastWithCode_some_mem hw).1 h

theorem chainF_codeLen_le {l : List CustomsRecord} :
    ∀ {f : Nat} {q x : CustomsRecord}, x ∈ chainF l f q →
      strLen x.code ≤ strLen q.code := by
  intro f
  induction f with
  | zero =>
    intro q x hx
    rw [chainF] at hx
    rcases List.mem_singleton.mp hx with h
    exact h ▸ Nat.le_refl _
  | succ f ih =>
    intro q x hx
    rw [chainF] at hx
    rcases List.mem_cons.mp hx with h | h
    · exact h ▸ Nat.le_refl _
    · rcases hp : parentOf l q with _ | c
      · simp only [hp] at h; cases h
      · simp only [hp] at h
        rcases hw : lastWithCode l c with _ | p
        · simp only [hw] at h; cases h
        · simp only [hw] at h
          have h1 : strLen c < strLen q.code := (parentOf_some hp).2
          have h2 : p.code = c := (lastWithCode_some_mem hw).2
          have h3 := ih h
          rw [h2] at h3
          omega

/-- A chain element whose resolved parent entry exists has that entry in the
chain as well (with enough fuel the chain is closed under taking parents). -/
theorem chainF_closed {l : List CustomsRecord} :
    ∀ {f : Nat} {q x p : CustomsRecord} {c : String}, strLen q.code ≤ f →
      x ∈ chainF l f q → parentOf l x = some c → lastWithCode l c = some p →
      p ∈ chainF l f q := by
  intro f
  induction f with
  | zero =>
    intro q x p c hf hx hpc hw
    rw [chainF] at hx
    rcases List.mem_singleton.mp hx with h
    subst h
    rw [parentOf_of_len_zero (Nat.le_zero.mp hf)] at hpc
    cases hpc
  | succ f ih =>
    intro q x p c hf hx hpc hw
    rw [chainF] at hx ⊢
    rcases List.mem_cons.mp hx with h | h
    · subst h
      simp only [hpc, hw]
      exact List.mem_cons_of_mem _ (self_mem_chainF l f p)
    · rcases hp : parentOf l q with _ | c'
      · simp only [hp] at h; cases h
      · simp only [hp] at h ⊢
        rcases hw' : lastWithCode l c' with _ | p'
        · simp only [hw'] at h; cases h
        · simp only [hw'] at h ⊢
          have h1 : strLen c' < strLen q.code := (parentOf_some hp).2
          have h2 : p'.code = c' := (lastWithCode_some_mem hw').2
          have hfp : strLen p'.code ≤ f := by rw [h2]; omega
          exact List.mem_cons_of_mem _ (ih hfp h hpc hw)

/-! ## Counting helpers -/

theorem countP_or_disjoint {α : Type} (p q : α → Bool) :
    ∀ (l : List α), (∀ x ∈ l, ¬(p x = true ∧ q x = true)) →
      l.countP (fun x => p x || q x) = l.countP p + l.countP q := by
  intro l
  induction l with
  | nil => intro _; simp
  | cons a l ih =>
    intro h
    have ha := h a (List.mem_cons_self a l)
    rw [List.countP_cons, List.countP_cons, List.countP_cons,
      ih fun x hx => h x (List.mem_cons_of_mem a hx)]
    by_cases hp : p a = true
    · have hq : ¬ q a = true := fun hq => ha ⟨hp, hq⟩
      simp [hp, hq]
      omega
    · by_cases hq : q a = true <;> simp [hp, hq] <;> omega

theorem sum_map_ite_one {α : Type} (P : α → Prop) [DecidablePred P] :
    ∀ l : List α, (l.map (fun x => if P x then 1 else 0)).sum
      = l.countP (fun x => decide (P x)) := by
  intro l
  induction l with
  | nil => simp
  | cons a l ih =>
    rw [List.map_cons, List.sum_cons, ih, List.countP_cons]
    by_cases hp : P a <;> simp [hp] <;> omega

/-- Counting members of a duplicate-free sublist s inside a duplicate-free
list l that satisfy p is counting p inside s. -/
theorem countP_inter_of_nodup {α : Type} [DecidableEq α] (p : α → Bool) :
    ∀ (s l : List α), l.Nodup → s.Nodup → (∀ x ∈ s, x ∈ l) →
      (l.countP fun x => decide (x ∈ s) && p x) = s.countP p := by
  intro s
  induction s with
  | nil => intro l _ _ _; simp
  | cons a s ih =>
    intro l hl hs hsub
    have has : a ∉ s := (List.nodup_cons.mp hs).1
    have hmem : a ∈ l := hsub a (List.mem_cons_self a s)
    have step1 : (l.countP fun x => decide (x ∈ a :: s) && p x)
        = (l.countP fun x => (decide (x = a) && p x) || (decide (x ∈ s) && p x)) := by
      apply List.countP_congr
      intro x _
      constructor
      · intro hx
        simp only [Bool.and_eq_true, decide_eq_true_eq, List.mem_cons] at hx
        simp only [Bool.or_eq_true, Bool.and_eq_true, decide_eq_true_eq]
        rcases hx.1 with h | h
        · exact Or.inl ⟨h, hx.2⟩
        · exact Or.inr ⟨h, hx.2⟩
      · intro hx
        simp only [Bool.or_eq_true, Bool.and_eq_true, decide_eq_true_eq] at hx
        simp only [Bool.and_eq_true, decide_eq_true_eq, List.mem_cons]
        rcases hx with ⟨h, hp⟩ | ⟨h, hp⟩
        · exact ⟨Or.inl h, hp⟩
        · exact ⟨Or.inr h, hp⟩
    have step2 : (l.countP fun x => (decide (x = a) && p x) || (decide (x ∈ s) && p x))
        = (l.countP fun x => decide (x = a) && p x)
          + (l.countP fun x => decide (x ∈ s) && p x) := by
      apply countP_or_disjoint
      intro x _ hx
      simp only [Bool.and_eq_true, decide_eq_true_eq] at hx
      exact has (hx.1.1 ▸ hx.2.1)
    have step3 : (l.countP fun x => decide (x = a) && p x)
        = if p a then 1 else 0 := by
      by_cases hp : p a = true
      · have : (l.countP fun x => decide (x = a) && p x) = l.countP (· = a) := by
          apply List.countP_congr
          intro x _
          simp only [Bool.and_eq_true, decide_eq_true_eq]
          constructor
          · intro h; exact h.1
          · intro h; exact ⟨by simpa using h, h ▸ hp⟩
        rw [this, if_pos hp]
        have := List.count_eq_one_of_mem hl hmem
        simpa [List.count] using this
      · rw [if_neg hp]
        rw [List.countP_eq_zero]
        intro x _ hx
        simp only [Bool.and_eq_true, decide_eq_true_eq] at hx
        exact hp (hx.1 ▸ hx.2)
    rw [step1, step2, step3, ih l hl (List.nodup_cons.mp hs).2
      fun x hx => hsub x (List.mem_cons_of_mem a hx), List.countP_cons]
    by_cases hp : p a <;> simp [hp] <;> omega

theorem chainF_nodup {l : List CustomsRecord} :
    ∀ (f : Nat) (q : CustomsRecord), (chainF l f q).Nodup := by
  intro f
  induction f with
  | zero => intro q; simp [chainF]
  | succ f ih =>
    intro q
    rw [chainF]
    rcases hp : parentOf l q with _ | c
    · simp [hp]
    · rcases hw : lastWithCode l c with _ | p
      · simp [hp, hw]
      · simp only [hp, hw]
        rw [List.nodup_cons]
        refine ⟨?_, ih p⟩
        intro hq
        have h1 : strLen q.code ≤ strLen p.code := chainF_codeLen_le hq
        have h2 : p.code = c := (lastWithCode_some_mem hw).2
        have h3 : strLen c < strLen q.code := (parentOf_some hp).2
        rw [h2] at h1
        omega

/-- With enough fuel, a chain has exactly one parentless element (its end). -/
theorem chainF_countP_parentless {l : List CustomsRecord} :
    ∀ {f : Nat} {q : CustomsRecord}, strLen q.code ≤ f →
      ((chainF l f q).countP fun x => (parentOf l x).isNone) = 1 := by
  intro f
  induction f with
  | zero =>
    intro q hf
    rw [chainF]
    have := parentOf_of_len_zero (l := l) (r := q) (Nat.le_zero.mp hf)
    simp [this]
  | succ f ih =>
    intro q hf
    rw [chainF]
    rcases hp : parentOf l q with _ | c
    · simp [hp]
    · obtain ⟨hc, hlt⟩ := parentOf_some hp
      obtain ⟨x, hx, hxc⟩ := List.mem_map.mp hc
      obtain ⟨p, hw, hpl, hpc⟩ := lastWithCode_mem x hx hxc
      simp only [hw]
      rw [List.countP_cons]
      have hfp : strLen p.code ≤ f := by rw [hpc]; omega
      rw [ih hfp]
      simp [hp]

/-- With enough fuel, the number of chain elements whose parent resolves to
r.code is one exactly when r is a proper (non-head) element of the chain. -/
theorem chainF_countP_parent {l : List CustomsRecord} (hnd : (l.map (·.code)).Nodup) :
    ∀ {f : Nat} {q r : CustomsRecord}, q ∈ l → r ∈ l → strLen q.code ≤ f →
      ((chainF l f q).countP fun x => parentOf l x = some r.code)
        = if r ∈ chainF l f q ∧ r ≠ q then 1 else 0 := by
  intro f
  induction f with
  | zero =>
    intro q r hq hr hf
    rw [chainF]
    have hnone := parentOf_of_len_zero (l := l) (r := q) (Nat.le_zero.mp hf)
    have : ¬ (r ∈ ([q] : List CustomsRecord) ∧ r ≠ q) := by
      rintro ⟨h1, h2⟩
      exact h2 (List.mem_singleton.mp h1)
    rw [if_neg this]
    simp [hnone]
  | succ f ih =>
    intro q r hq hr hf
    rw [chainF]
    rcases hp : parentOf l q with _ | c
    · have : ¬ (r ∈ (q :: ([] : List CustomsRecord)) ∧ r ≠ q) := by
        rintro ⟨h1, h2⟩
        rcases List.mem_cons.mp h1 with h | h
        · exact h2 h
        · cases h
      simp only [hp]
      rw [if_neg this]
      simp [hp]
    · obtain ⟨hc, hlt⟩ := parentOf_some hp
      obtain ⟨x, hx, hxc⟩ := List.mem_map.mp hc
      obtain ⟨p, hw, hpl, hpc⟩ := lastWithCode_mem x hx hxc
      simp only [hp, hw]
      rw [List.countP_cons]
      have hfp : strLen p.code ≤ f := by rw [hpc]; omega
      by_cases hcr : c = r.code
      · -- the head's parent entry is r itself
        have hpr : p = r := by
          have h1 : lastWithCode l r.code = some r := lastWithCode_self hnd hr
          rw [hcr] at hw
          rw [hw] at h1
          exact Option.some.inj h1
        have hne : r ≠ q := by
          intro h
          rw [hcr, h] at hlt
          omega
        have hcond : r ∈ q :: chainF l f p ∧ r ≠ q := by
          refine ⟨List.mem_cons_of_mem _ ?_, hne⟩
          rw [← hpr]
          exact self_mem_chainF l f p
        rw [if_pos hcond]
        have hza : ¬ (r ∈ chainF l f p ∧ r ≠ p) := by
          rintro ⟨-, h2⟩
          exact h2 hpr.symm
        rw [ih hpl hr hfp, if_neg hza]
        simp [hp, hcr]
      · -- the head's parent code is not r.code
        have hne : r ≠ p := by
          intro h
          apply hcr
          rw [← hpc, ← h]
        have hhead : ¬ ((parentOf l q = some r.code)) := by
          rw [hp]
          intro h
          exact hcr (Option.some.inj h)
        rw [ih hpl hr hfp]
        by_cases hrq : r = q
        · have hnotin : r ∉ chainF l f p := by
            intro h
            have h1 := chainF_codeLen_le h
            rw [hrq, hpc] at h1
            omega
          have c1 : ¬ (r ∈ chainF l f p ∧ r ≠ p) := fun h => hnotin h.1
          have c2 : ¬ (r ∈ q :: chainF l f p ∧ r ≠ q) := fun h => h.2 hrq
          rw [if_neg c1, if_neg c2]
          simp [hhead]
        · by_cases hin : r ∈ chainF l f p
          · have c1 : r ∈ chainF l f p ∧ r ≠ p := ⟨hin, hne⟩
            have c2 : r ∈ q :: chainF l f p ∧ r ≠ q :=
              ⟨List.mem_cons_of_mem _ hin, hrq⟩
            rw [if_pos c1, if_pos c2]
            simp [hhead]
          · have c1 : ¬ (r ∈ chainF l f p ∧ r ≠ p) := fun h => hin h.1
            have c2 : ¬ (r ∈ q :: chainF l f p ∧ r ≠ q) := by
              rintro ⟨h1, h2⟩
              rcases List.mem_cons.mp h1 with h | h
              · exact h2 h
              · exact hin h
            rw [if_neg c1, if_neg c2]
            simp [hhead]

/-! ## The counting argument for the tree invariant -/

/-- Under distinct codes, the bucket of c is the ordered sublist of records
whose parent resolves to c. -/
theorem bucket_eq {l : List CustomsRecord} (hnd : (l.map (·.code)).Nodup) (c : String) :
    bucketOf (attachPass l).buckets c = l.filter (fun r => parentOf l r = some c) := by
  rw [attachPass_bucketOf, map_nodeOf_filter hnd]

/-- Under distinct codes, the raw root list is the ordered sublist of records
with no resolvable parent. -/
theorem roots_eq {l : List CustomsRecord} (hnd : (l.map (·.code)).Nodup) :
    (attachPass l).roots = l.filter (fun r => (parentOf l r).isNone) := by
  rw [attachPass_roots, map_nodeOf_filter hnd]

theorem subtreeRecs_subset {l : List CustomsRecord} (hnd : (l.map (·.code)).Nodup) :
    ∀ {f : Nat} {r x : CustomsRecord}, r ∈ l →
      x ∈ subtreeRecs (attachPass l).buckets f r → x ∈ l := by
  intro f
  induction f with
  | zero =>
    intro r x hr hx
    rw [subtreeRecs] at hx
    exact (List.mem_singleton.mp hx) ▸ hr
  | succ f ih =>
    intro r x hr hx
    rw [subtreeRecs] at hx
    rcases List.mem_cons.mp hx with h | h
    · exact h ▸ hr
    · obtain ⟨y, hy, hxy⟩ := List.mem_flatMap.mp h
      rw [bucket_eq hnd] at hy
      exact ih (List.mem_of_mem_filter hy) hxy

/-- The multiplicity of a record inside a materialised subtree: one when the
subtree's root lies on the record's ancestor chain, zero otherwise. -/
theorem count_subtreeRecs {l : List CustomsRecord} (hnd : (l.map (·.code)).Nodup) :
    ∀ {f : Nat} {r q : CustomsRecord}, r ∈ l → q ∈ l →
      codeLenSum l + 1 ≤ f + strLen r.code →
      List.count q (subtreeRecs (attachPass l).buckets f r)
        = if r ∈ chainOf l q then 1 else 0 := by
  have hl : l.Nodup := List.Nodup.of_map _ hnd
  intro f
  induction f with
  | zero =>
    intro r q hr hq hf
    have := codeLen_le_sum hr
    omega
  | succ f ih =>
    intro r q hr hq hf
    rw [subtreeRecs, List.count_cons]
    have hmap : ((bucketOf (attachPass l).buckets r.code).map
          (List.count q ∘ subtreeRecs (attachPass l).buckets f))
        = (bucketOf (attachPass l).buckets r.code).map
            (fun x => if x ∈ chainOf l q then 1 else 0) := by
      apply List.map_congr_left
      intro x hx
      rw [bucket_eq hnd] at hx
      have hxl : x ∈ l := List.mem_of_mem_filter hx
      have hpx : parentOf l x = some r.code := by
        have := List.of_mem_filter hx
        simpa using this
      have hlen : strLen r.code < strLen x.code := (parentOf_some hpx).2
      exact ih hxl hq (by omega)
    rw [List.count_flatMap, hmap, sum_map_ite_one (fun x => x ∈ chainOf l q),
      bucket_eq hnd, List.countP_filter,
      countP_inter_of_nodup _ (chainOf l q) l hl (chainF_nodup _ _)
        (fun x hx => chainF_subset hq hx)]
    simp only [chainOf]
    rw [chainF_countP_parent hnd hq hr (Nat.le_refl _)]
    simp only [beq_iff_eq]
    by_cases hqr : r = q
    · have h1 : ¬ (r ∈ chainF l (strLen q.code) q ∧ r ≠ q) := by
        rintro ⟨-, h2⟩
        exact h2 hqr
      have h2 : r ∈ chainF l (strLen q.code) q := by
        rw [hqr]
        exact self_mem_chainF l _ q
      rw [if_neg h1, if_pos h2, if_pos hqr]
    · rw [if_neg hqr]
      by_cases hin : r ∈ chainF l (strLen q.code) q
      · rw [if_pos ⟨hin, hqr⟩, if_pos hin]
      · rw [if_neg (fun h => hin h.1), if_neg hin]

/-- Every member of the input appears exactly once in the concatenation of the
materialised root subtrees. -/
theorem count_roots_flatMap {l : List CustomsRecord} (hnd : (l.map (·.code)).Nodup)
    {q : CustomsRecord} (hq : q ∈ l) :
    List.count q ((attachPass l).roots.flatMap
        (subtreeRecs (attachPass l).buckets (codeLenSum l + 1))) = 1 := by
  have hl : l.Nodup := List.Nodup.of_map _ hnd
  have hmap : ((attachPass l).roots.map
        (List.count q ∘ subtreeRecs (attachPass l).buckets (codeLenSum l + 1)))
      = (attachPass l).roots.map (fun x => if x ∈ chainOf l q then 1 else 0) := by
    apply List.map_congr_left
    intro x hx
    rw [roots_eq hnd] at hx
    exact count_subtreeRecs hnd (List.mem_of_mem_filter hx) hq (by omega)
  rw [List.count_flatMap, hmap, sum_map_ite_one (fun x => x ∈ chainOf l q),
    roots_eq hnd, List.countP_filter,
    countP_inter_of_nodup _ (chainOf l q) l hl (chainF_nodup _ _)
      (fun x hx => chainF_subset hq hx)]
  exact chainF_countP_parentless (Nat.le_refl _)

/-! ## Relating the materialised trees to the subtree lists -/

theorem flattenForest_eq_flatMap :
    ∀ ts : List CustomsTreeNode, flattenForest ts = ts.flatMap flattenTree := by
  intro ts
  induction ts with
  | nil => rfl
  | cons t ts ih => rw [flattenForest, ih, List.flatMap_cons]

theorem nodesOfForest_eq_flatMap :
    ∀ ts : List CustomsTreeNode, nodesOfForest ts = ts.flatMap nodesOfTree := by
  intro ts
  induction ts with
  | nil => rfl
  | cons t ts ih => rw [nodesOfForest, ih, List.flatMap_cons]

theorem perm_flatMap {α β : Type} (g h : α → List β) {s t : List α}
    (hst : s.Perm t) (hgh : ∀ x, (g x).Perm (h x)) :
    (s.flatMap g).Perm (t.flatMap h) := by
  have h1 : ∀ u : List α, (u.flatMap g).Perm (u.flatMap h) := by
    intro u
    induction u with
    | nil => exact List.Perm.refl _
    | cons a u ih =>
      rw [List.flatMap_cons, List.flatMap_cons]
      exact (hgh a).append ih
  have h2 : (s.flatMap h).Perm (t.flatMap h) := by
    rw [List.flatMap_def, List.flatMap_def]
    exact (hst.map h).flatten
  exact (h1 s).trans h2

theorem sortBucket_perm (rs : List CustomsRecord) : (sortBucket rs).Perm rs := by
  rw [sortBucket]
  by_cases h : 1 < rs.length
  · rw [if_pos h]
    exact List.perm_insertionSort recLE rs
  · rw [if_neg h]

theorem mkNode_row (bs : List (String × List CustomsRecord)) (f : Nat)
    (r : CustomsRecord) : (mkNode bs f r).row = r := by
  cases f <;> rfl

/-- Flattening a materialised subtree yields the subtree record list, up to
order. -/
theorem flattenTree_mkNode_perm (bs : List (String × List CustomsRecord)) :
    ∀ (f : Nat) (r : CustomsRecord),
      (flattenTree (mkNode bs f r)).Perm (subtreeRecs bs f r) := by
  intro f
  induction f with
  | zero => intro r; rw [mkNode, subtreeRecs, flattenTree, flattenForest]
  | succ f ih =>
    intro r
    rw [mkNode, subtreeRecs, flattenTree, flattenForest_eq_flatMap,
      List.flatMap_map]
    exact List.Perm.cons r (perm_flatMap _ _ (sortBucket_perm _) ih)

/-- The flattened forest built by buildTreeFromList is a permutation of the
input, provided the input codes are distinct. -/
theorem flattenForest_buildTree_perm {l : List CustomsRecord}
    (hnd : (l.map (·.code)).Nodup) :
    (flattenForest (buildTreeFromList l)).Perm l := by
  have hl : l.Nodup := List.Nodup.of_map _ hnd
  rw [buildTreeFromList, flattenForest_eq_flatMap, List.flatMap_map]
  have h1 : ((List.insertionSort recLE (attachPass l).roots).flatMap
        (fun r => flattenTree (mkNode (attachPass l).buckets (codeLenSum l + 1) r))).Perm
      ((attachPass l).roots.flatMap
        (subtreeRecs (attachPass l).buckets (codeLenSum l + 1))) :=
    perm_flatMap _ _ (List.perm_insertionSort recLE _)
      (fun r => flattenTree_mkNode_perm _ _ r)
  refine h1.trans ?_
  rw [List.perm_iff_count]
  intro a
  by_cases ha : a ∈ l
  · rw [count_roots_flatMap hnd ha, List.count_eq_one_of_mem hl ha]
  · rw [List.count_eq_zero.mpr ha, List.count_eq_zero.mpr]
    intro hmem
    obtain ⟨r, hr, har⟩ := List.mem_flatMap.mp hmem
    have hrl : r ∈ l := by
      rw [roots_eq hnd] at hr
      exact List.mem_of_mem_filter hr
    exact ha (subtreeRecs_subset hnd hrl har)

/-- Every node of a materialised tree is itself a materialised node of an
input record, with sufficient fuel. -/
theorem mem_nodesOfTree_mkNode {l : List CustomsRecord} (hnd : (l.map (·.code)).Nodup) :
    ∀ {f : Nat} {r : CustomsRecord} {n : CustomsTreeNode}, r ∈ l →
      codeLenSum l + 1 ≤ f + strLen r.code →
      n ∈ nodesOfTree (mkNode (attachPass l).buckets f r) →
      ∃ x f', x ∈ l ∧ codeLenSum l + 1 ≤ f' + strLen x.code ∧
        n = mkNode (attachPass l).buckets f' x := by
  intro f
  induction f with
  | zero =>
    intro r n hr hf _
    have := codeLen_le_sum hr
    omega
  | succ f ih =>
    intro r n hr hf hn
    rw [mkNode, nodesOfTree] at hn
    rcases List.mem_cons.mp hn with h | h
    · refine ⟨r, f + 1, hr, hf, ?_⟩
      rw [h, mkNode]
    · rw [nodesOfForest_eq_flatMap] at h
      obtain ⟨t, ht, hnt⟩ := List.mem_flatMap.mp h
      obtain ⟨y, hy, hty⟩ := List.mem_map.mp ht
      have hyb : y ∈ bucketOf (attachPass l).buckets r.code :=
        (sortBucket_perm _).mem_iff.mp hy
      rw [bucket_eq hnd] at hyb
      have hyl : y ∈ l := List.mem_of_mem_filter hyb
      have hpy : parentOf l y = some r.code := by
        have := List.of_mem_filter hyb
        simpa using this
      have hlen : strLen r.code < strLen y.code := (parentOf_some hpy).2
      rw [← hty] at hnt
      exact ih hyl (by omega) hnt

/-- The subRows of any node of the built forest are exactly (up to the sorted
order) the input records whose parent resolves to that node's code. -/
theorem buildTree_subRows_exact {l : List CustomsRecord}
    (hnd : (l.map (·.code)).Nodup) :
    ∀ n ∈ nodesOfForest (buildTreeFromList l),
      (n.subRows.map CustomsTreeNode.row).Perm
        (l.filter fun r => parentOf l r = some n.row.code) := by
  intro n hn
  rw [buildTreeFromList, nodesOfForest_eq_flatMap] at hn
  obtain ⟨t, ht, hnt⟩ := List.mem_flatMap.mp hn
  obtain ⟨r0, hr0, htr⟩ := List.mem_map.mp ht
  have hr0r : r0 ∈ (attachPass l).roots :=
    (List.perm_insertionSort recLE _).mem_iff.mp hr0
  have hr0l : r0 ∈ l := by
    rw [roots_eq hnd] at hr0r
    exact List.mem_of_mem_filter hr0r
  rw [← htr] at hnt
  obtain ⟨x, f', hx, hf', hnx⟩ :=
    mem_nodesOfTree_mkNode hnd hr0l (by omega) hnt
  have hx_le := codeLen_le_sum hx
  obtain ⟨g, hg⟩ : ∃ g, f' = g + 1 := by
    rcases f' with _ | g
    · omega
    · exact ⟨g, rfl⟩
  subst hg
  subst hnx
  rw [mkNode, CustomsTreeNode.subRows, CustomsTreeNode.row, List.map_map]
  have hrowmap : (CustomsTreeNode.row ∘ mkNode (attachPass l).buckets g) = id := by
    funext y
    exact mkNode_row _ _ y
  rw [hrowmap, List.map_id]
  exact (sortBucket_perm _).trans (by rw [bucket_eq hnd])

/-! ## Order properties of the comparator -/

theorem strEq_of_data_eq {a b : String} (h : a.data = b.data) : a = b :=
  congrArg (fun d : List Char => (⟨d⟩ : String)) h

theorem strLT_trichotomy (a b : String) : strLT a b ∨ a = b ∨ strLT b a := by
  rcases lt_trichotomy a.data b.data with h | h | h
  · exact Or.inl h
  · exact Or.inr (Or.inl (strEq_of_data_eq h))
  · exact Or.inr (Or.inr h)

theorem strLT_asymm {a b : String} (h : strLT a b) : ¬ strLT b a :=
  lt_asymm h

theorem strLT_irrefl (a : String) : ¬ strLT a a :=
  lt_irrefl a.data

theorem strLT_trans {a b c : String} (h1 : strLT a b) (h2 : strLT b c) :
    strLT a c :=
  lt_trans h1 h2

/-- recLE as a lexicographic comparison on (code, description). -/
theorem recLE_iff (a b : CustomsRecord) :
    recLE a b ↔ strLT a.code b.code ∨
      (a.code = b.code ∧ (strLT a.description b.description ∨
        a.description = b.description)) := by
  rw [recLE, compareRecords]
  rcases strLT_trichotomy a.code b.code with h | h | h
  · rw [if_pos h]
    simp only [h, true_or, iff_true]
    omega
  · rw [if_neg (h ▸ strLT_irrefl a.code), if_neg (h ▸ strLT_irrefl a.code)]
    rcases strLT_trichotomy a.description b.description with hd | hd | hd
    · rw [if_pos hd]
      simp only [h, hd, true_and, true_or, or_true, iff_true]
      omega
    · rw [if_neg (hd ▸ strLT_irrefl a.description),
        if_neg (hd ▸ strLT_irrefl a.description)]
      simp only [h, hd, true_and, or_true, iff_true]
      omega
    · rw [if_neg (strLT_asymm hd), if_pos hd]
      constructor
      · intro hle; omega
      · rintro (hc | ⟨-, hdd | hdd⟩)
        · exact absurd hc (h ▸ strLT_irrefl a.code)
        · exact absurd hd (strLT_asymm hdd)
        · exact absurd hd (hdd ▸ strLT_irrefl a.description)
  · rw [if_neg (strLT_asymm h), if_pos h]
    constructor
    · intro hle; omega
    · rintro (hc | ⟨hc, -⟩)
      · exact absurd hc (strLT_asymm h)
      · exact absurd h (hc ▸ strLT_irrefl a.code)

instance : IsTotal CustomsRecord recLE := by
  constructor
  intro a b
  rw [recLE_iff, recLE_iff]
  rcases strLT_trichotomy a.code b.code with h | h | h
  · exact Or.inl (Or.inl h)
  · rcases strLT_trichotomy a.description b.description with hd | hd | hd
    · exact Or.inl (Or.inr ⟨h, Or.inl hd⟩)
    · exact Or.inl (Or.inr ⟨h, Or.inr hd⟩)
    · exact Or.inr (Or.inr ⟨h.symm, Or.inl hd⟩)
  · exact Or.inr (Or.inl h)

instance : IsTrans CustomsRecord recLE := by
  constructor
  intro a b c hab hbc
  rw [recLE_iff] at hab hbc ⊢
  rcases hab with h1 | ⟨h1, hd1⟩
  · rcases hbc with h2 | ⟨h2, -⟩
    · exact Or.inl (strLT_trans h1 h2)
    · exact Or.inl (h2 ▸ h1)
  · rcases hbc with h2 | ⟨h2, hd2⟩
    · exact Or.inl (h1 ▸ h2)
    · refine Or.inr ⟨h1.trans h2, ?_⟩
      rcases hd1 with hd1 | hd1
      · rcases hd2 with hd2 | hd2
        · exact Or.inl (strLT_trans hd1 hd2)
        · exact Or.inl (hd2 ▸ hd1)
      · rcases hd2 with hd2 | hd2
        · exact Or.inl (hd1 ▸ hd2)
        · exact Or.inr (hd1.trans hd2)

theorem recLE_antisymm {a b : CustomsRecord} (h1 : recLE a b) (h2 : recLE b a) :
    a.code = b.code ∧ a.description = b.description := by
  rw [recLE_iff] at h1 h2
  rcases h1 with hc1 | ⟨hc1, hd1⟩
  · rcases h2 with hc2 | ⟨hc2, -⟩
    · exact absurd hc1 (strLT_asymm hc2)
    · exact absurd hc1 (hc2 ▸ strLT_irrefl b.code)
  · rcases h2 with hc2 | ⟨-, hd2⟩
    · exact absurd hc2 (hc1 ▸ strLT_irrefl a.code)
    · refine ⟨hc1, ?_⟩
      rcases hd1 with hd1 | hd1
      · rcases hd2 with hd2 | hd2
        · exact absurd hd1 (strLT_asymm hd2)
        · exact absurd hd1 (hd2 ▸ strLT_irrefl b.description)
      · exact hd1

/-- Two sorted permutations agree when ties are impossible among their
elements. -/
theorem sorted_perm_eq :
    ∀ {s t : List CustomsRecord}, s.Perm t → s.Sorted recLE → t.Sorted recLE →
      (∀ a ∈ s, ∀ b ∈ t, recLE a b → recLE b a → a = b) → s = t := by
  intro s
  induction s with
  | nil =>
    intro t hp _ _ _
    exact (hp.symm.eq_nil).symm
  | cons a s ih =>
    intro t hp hs ht hanti
    have hat : a ∈ t := hp.mem_iff.mp (List.mem_cons_self a s)
    cases t with
    | nil => cases hat
    | cons b t' =>
      have hab : a = b := by
        rcases List.mem_cons.mp hat with h | h
        · exact h
        · have hba : recLE b a := List.rel_of_sorted_cons ht a h
          have hbs : b ∈ a :: s := hp.symm.mem_iff.mp (List.mem_cons_self b t')
          rcases List.mem_cons.mp hbs with h2 | h2
          · exact h2.symm
          · have hab' : recLE a b := List.rel_of_sorted_cons hs b h2
            exact hanti a (List.mem_cons_self a s) b (List.mem_cons_self b t')
              hab' hba
      subst hab
      have hp' : s.Perm t' := hp.cons_inv
      have heq := ih hp' hs.of_cons ht.of_cons
        (fun x hx y hy hxy hyx =>
          hanti x (List.mem_cons_of_mem a hx) y (List.mem_cons_of_mem a hy)
            hxy hyx)
      rw [heq]

theorem insertionSort_eq_of_perm {s t : List CustomsRecord} (hst : s.Perm t)
    (hanti : ∀ a ∈ s, ∀ b ∈ t, recLE a b → recLE b a → a = b) :
    List.insertionSort recLE s = List.insertionSort recLE t := by
  apply sorted_perm_eq
  · exact (List.perm_insertionSort recLE s).trans
      (hst.trans (List.perm_insertionSort recLE t).symm)
  · exact List.sorted_insertionSort recLE s
  · exact List.sorted_insertionSort recLE t
  · intro x hx y hy
    exact hanti x ((List.perm_insertionSort recLE s).mem_iff.mp hx)
      y ((List.perm_insertionSort recLE t).mem_iff.mp hy)

/-- With distinct codes, ties are impossible among members of a list. -/
theorem nodup_no_ties {l : List CustomsRecord} (hnd : (l.map (·.code)).Nodup) :
    ∀ a ∈ l, ∀ b ∈ l, recLE a b → recLE b a → a = b := by
  intro a ha b hb h1 h2
  exact List.inj_on_of_nodup_map hnd ha hb (recLE_antisymm h1 h2).1

/-! ## Permutation invariance of buildTreeFromList (distinct codes) -/

theorem findParentAux_congr {cs1 cs2 : List String}
    (h : ∀ c, c ∈ cs1 ↔ c ∈ cs2) (code : String) :
    ∀ n, findParentAux code cs1 n = findParentAux code cs2 n := by
  intro n
  induction n with
  | zero => rfl
  | succ n ih =>
    rw [findParentAux, findParentAux]
    by_cases hc : strTake code (n + 1) ∈ cs1
    · rw [if_pos (List.elem_eq_true_of_mem hc),
        if_pos (List.elem_eq_true_of_mem ((h _).mp hc))]
    · rw [if_neg (fun hcc => hc (List.mem_of_elem_eq_true hcc)),
        if_neg (fun hcc => hc ((h _).mpr (List.mem_of_elem_eq_true hcc))), ih]

theorem parentOf_congr {l1 l2 : List CustomsRecord} (hp : l1.Perm l2)
    (r : CustomsRecord) : parentOf l1 r = parentOf l2 r := by
  rw [parentOf, parentOf, findParentCode, findParentCode]
  exact findParentAux_congr (fun c => (hp.map (·.code)).mem_iff) r.code _

theorem perm_eq_of_length_le_one {s t : List CustomsRecord} (hp : s.Perm t)
    (hlen : s.length ≤ 1) : s = t := by
  cases s with
  | nil => exact (hp.symm.eq_nil).symm
  | cons a s' =>
    cases s' with
    | nil => exact List.singleton_perm.mp hp
    | cons b s'' => simp at hlen

/-- buildTreeFromList is invariant under input permutation when codes are
distinct: the determinism property of the hierarchy builder. -/
theorem buildTree_perm_invariant {l1 l2 : List CustomsRecord} (hp : l1.Perm l2)
    (hnd : (l1.map (·.code)).Nodup) :
    buildTreeFromList l1 = buildTreeFromList l2 := by
  have hnd2 : (l2.map (·.code)).Nodup := ((hp.map _).nodup_iff).mp hnd
  have hpar : ∀ r, parentOf l1 r = parentOf l2 r := parentOf_congr hp
  have hbuck : ∀ c, (bucketOf (attachPass l1).buckets c).Perm
      (bucketOf (attachPass l2).buckets c) := by
    intro c
    rw [bucket_eq hnd, bucket_eq hnd2]
    have hpred : (fun r => decide (parentOf l1 r = some c))
        = (fun r => decide (parentOf l2 r = some c)) :=
      funext fun r => by rw [hpar r]
    rw [hpred]
    exact hp.filter _
  have hbsub1 : ∀ c, ∀ x ∈ bucketOf (attachPass l1).buckets c, x ∈ l1 := by
    intro c x hx
    rw [bucket_eq hnd] at hx
    exact List.mem_of_mem_filter hx
  have hbsub2 : ∀ c, ∀ x ∈ bucketOf (attachPass l2).buckets c, x ∈ l2 := by
    intro c x hx
    rw [bucket_eq hnd2] at hx
    exact List.mem_of_mem_filter hx
  have hanti12 : ∀ a ∈ l1, ∀ b ∈ l2, recLE a b → recLE b a → a = b := by
    intro a ha b hb h1 h2
    exact nodup_no_ties hnd a ha b (hp.symm.subset hb) h1 h2
  have hsort : ∀ c, sortBucket (bucketOf (attachPass l1).buckets c)
      = sortBucket (bucketOf (attachPass l2).buckets c) := by
    intro c
    rw [sortBucket, sortBucket, (hbuck c).length_eq]
    by_cases hlen : 1 < (bucketOf (attachPass l2).buckets c).length
    · rw [if_pos hlen, if_pos hlen]
      exact insertionSort_eq_of_perm (hbuck c)
        (fun a ha b hb => hanti12 a (hbsub1 c a ha) b (hbsub2 c b hb))
    · rw [if_neg hlen, if_neg hlen]
      refine perm_eq_of_length_le_one (hbuck c) ?_
      have := (hbuck c).length_eq
      omega
  have hmk : ∀ (f : Nat) (r : CustomsRecord),
      mkNode (attachPass l1).buckets f r = mkNode (attachPass l2).buckets f r := by
    intro f
    induction f with
    | zero => intro r; rfl
    | succ f ih =>
      intro r
      rw [mkNode, mkNode, hsort r.code]
      have : mkNode (attachPass l1).buckets f = mkNode (attachPass l2).buckets f :=
        funext ih
      rw [this]
  have hroots : (attachPass l1).roots.Perm (attachPass l2).roots := by
    rw [roots_eq hnd, roots_eq hnd2]
    have hpred : (fun r => (parentOf l1 r).isNone)
        = (fun r => (parentOf l2 r).isNone) :=
      funext fun r => by rw [hpar r]
    rw [hpred]
    exact hp.filter _
  have hrsub1 : ∀ x ∈ (attachPass l1).roots, x ∈ l1 := by
    intro x hx
    rw [roots_eq hnd] at hx
    exact List.mem_of_mem_filter hx
  have hrsub2 : ∀ x ∈ (attachPass l2).roots, x ∈ l2 := by
    intro x hx
    rw [roots_eq hnd2] at hx
    exact List.mem_of_mem_filter hx
  have hsum : codeLenSum l1 = codeLenSum l2 := (hp.map _).sum_eq
  rw [buildTreeFromList, buildTreeFromList,
    insertionSort_eq_of_perm hroots
      (fun a ha b hb => hanti12 a (hrsub1 a ha) b (hrsub2 b hb)),
    hsum]
  have : mkNode (attachPass l1).buckets (codeLenSum l2 + 1)
      = mkNode (attachPass l2).buckets (codeLenSum l2 + 1) :=
    funext (hmk (codeLenSum l2 + 1))
  rw [this]

/-! ## Claim theorems for the hierarchy builder -/

/-- Concrete input used by witnesses: the spec's example dataset. -/
def exampleList : List CustomsRecord :=
  [mkRec "01" "Kafshe", mkRec "0101" "Kuaj", mkRec "0102" "Gomar",
    mkRec "02" "Mish"]

/-- Concrete input with one duplicated code and differing payloads. -/
def dupCodeListA : List CustomsRecord :=
  [mkRec "1" "a", mkRec "1" "b"]

/-- The same records as dupCodeListA in the opposite order. -/
def dupCodeListB : List CustomsRecord :=
  [mkRec "1" "b", mkRec "1" "a"]

/-- C1 (amended: the input records carry pairwise-distinct codes): in the
forest returned by buildTreeFromList every node's subRows are exactly —
as a permutation, i.e. as a multiset — the input records whose parent
(the longest proper prefix of their code occurring in the input) resolves to
that node's code, and flattening all roots through subRows yields exactly
the input identifiers with no duplicates. -/
theorem C1_buildTree_invariant (l : List CustomsRecord)
    (hnd : (l.map (·.code)).Nodup) :
    (∀ n ∈ nodesOfForest (buildTreeFromList l),
      (n.subRows.map CustomsTreeNode.row).Perm
        (l.filter fun r => parentOf l r = some n.row.code))
    ∧ ((flattenForest (buildTreeFromList l)).map (·.code)).Perm
        (l.map (·.code))
    ∧ ((flattenForest (buildTreeFromList l)).map (·.code)).Nodup := by
  refine ⟨buildTree_subRows_exact hnd, ?_, ?_⟩
  · exact (flattenForest_buildTree_perm hnd).map _
  · exact (((flattenForest_buildTree_perm hnd).map (·.code)).nodup_iff).mpr hnd

/-- Witness for C1 at the spec's example dataset. -/
theorem C1_witness :
    (∀ n ∈ nodesOfForest (buildTreeFromList exampleList),
      (n.subRows.map CustomsTreeNode.row).Perm
        (exampleList.filter fun r => parentOf exampleList r = some n.row.code))
    ∧ ((flattenForest (buildTreeFromList exampleList)).map (·.code)).Perm
        (exampleList.map (·.code))
    ∧ ((flattenForest (buildTreeFromList exampleList)).map (·.code)).Nodup :=
  C1_buildTree_invariant exampleList (by decide)

/-- C1 counterexample: on an input with a duplicated code the flattened forest
repeats an identifier, so the claim's no-duplicates clause fails for
arbitrary lists. -/
theorem C1_counterexample :
    ¬ ((flattenForest (buildTreeFromList dupCodeListA)).map (·.code)).Nodup := by
  decide

/-- C3 (amended: the input records carry pairwise-distinct codes): two calls
to buildTreeFromList on inputs that are permutations of each other return
identical forests — the same nodes in the same order at every level. -/
theorem C3_buildTree_deterministic (l1 l2 : List CustomsRecord)
    (hp : l1.Perm l2) (hnd : (l1.map (·.code)).Nodup) :
    buildTreeFromList l1 = buildTreeFromList l2 :=
  buildTree_perm_invariant hp hnd

/-- Witness for C3: the spec's example dataset against one of its shuffles. -/
theorem C3_witness :
    buildTreeFromList exampleList =
      buildTreeFromList
        [mkRec "02" "Mish", mkRec "0101" "Kuaj", mkRec "01" "Kafshe",
          mkRec "0102" "Gomar"] :=
  C3_buildTree_deterministic _ _ (by decide) (by decide)

/-- C3 counterexample: with a duplicated code (last Map write wins), two
orderings of the same records produce different forests. -/
theorem C3_counterexample :
    dupCodeListA.Perm dupCodeListB ∧
      buildTreeFromList dupCodeListA ≠ buildTreeFromList dupCodeListB := by
  constructor
  · decide
  · intro h
    have h2 := congrArg (fun ts => (flattenForest ts).map (·.description)) h
    revert h2
    decide

/-! ## The materialised cache and query engine (src/unnamed/part_007)

The full design variant keys the hierarchy by code prefixes, groups the cache
by root code (buildCachedData, part_007:82-129) and answers searchByFields
(part_007:417-468) from the cache, a Dexie code-prefix scan, and a FlexSearch
description index.  The FlexSearch index is an external library, so the
normalised hit list of a description query (the output of extractFlexDocHits)
enters the model as a parameter; storage and index failures enter as flags. -/

/-- A description-index hit as normalised by extractFlexDocHits. -/
structure FlexHit where
  id : String
  highlight : Option String
deriving DecidableEq, Repr

/-- buildCachedData's sort comparator (part_007:91): by code only. -/
def codeCmp (a b : CustomsRecord) : Int :=
  if strLT a.code b.code then -1 else if strLT b.code a.code then 1 else 0

/-- The order induced by the code comparator. -/
def codeLE (a b : CustomsRecord) : Prop :=
  codeCmp a b ≤ 0

instance : DecidableRel codeLE := fun a b =>
  inferInstanceAs (Decidable (codeCmp a b ≤ 0))

/-- findRoot's while loop (part_007:103-113): repeatedly replace the current
code by its resolved parent, with fuel. -/
def findRootWalk (codeSet : List String) : Nat → String → String
  | 0, curr => curr
  | f + 1, curr =>
    match findParentCode curr codeSet with
    | none => curr
    | some p => findRootWalk codeSet f p

/-- findRoot (part_007:103-113): the last code reached by the parent walk.
A code's parent is strictly shorter, so strLen code steps always suffice;
the source memoises the result per entry code, which does not change the
value of this pure function. -/
def findRoot (codeSet : List String) (code : String) : String :=
  findRootWalk codeSet (strLen code) code

/-- The root annotation written into each cached row (part_007:115-117). -/
def withRoot (codeSet : List String) (r : CustomsRecord) : CustomsRecord :=
  { r with rootCode := some (findRoot codeSet r.code) }

/-- Group rows into byRootCode buckets in first-encounter order
(part_007:115-126). -/
def rootBuckets (codeSet : List String) (rows : List CustomsRecord) :
    List (String × List CustomsRecord) :=
  rows.foldl (fun bs r => pushBucket bs (findRoot codeSet r.code) r) []

/-- The materialised cache: cloned rows (sorted by code, with rootCode set),
the byRootCode buckets and the rootOrder list. -/
structure CachedData where
  cache : List CustomsRecord
  byRoot : List (String × List CustomsRecord)
  rootOrder : List String
deriving Repr

/-- buildCachedData (part_007:82-129). -/
def buildCachedData (rows : List CustomsRecord) : CachedData :=
  let cloned := List.insertionSort codeLE rows
  let codeSet := cloned.map (·.code)
  let withRoots := cloned.map (withRoot codeSet)
  let bs := rootBuckets codeSet withRoots
  { cache := withRoots, byRoot := bs, rootOrder := bs.map Prod.fst }

/-- The environment of a query: the Dexie store plus failure injections for
the storage read and the description-index search. -/
structure QueryEnv where
  store : List CustomsRecord
  storageFail : Bool
  indexFail : Bool
deriving Repr

/-- Dexie's native traversal order of the customs table: ascending primary
key, which is the code. -/
def dexieByCode (store : List CustomsRecord) : List CustomsRecord :=
  List.insertionSort codeLE store

/-- ensureAllDataCache (part_007:320-341): on a storage failure the caches are
set to empty and the error is logged; the Bool is the logged-diagnostic flag. -/
def ensureAllDataCacheM (env : QueryEnv) : CachedData × Bool :=
  if env.storageFail then (⟨[], [], []⟩, true) else (buildCachedData env.store, false)

/-- getAllData (part_007:377-385): clones of the cached rows. -/
def getAllDataM (env : QueryEnv) : List CustomsRecord × Bool :=
  ((ensureAllDataCacheM env).1.cache, (ensureAllDataCacheM env).2)

/-- CODE_SEARCH_MULTIPLIER (part_007:413). -/
def CODE_SEARCH_MULT : Nat := 4

/-- MAX_ALL_DATA_LIMIT (part_007:415). -/
def MAX_ALL_DATA : Nat := 10000

/-- searchByCodeCodes (part_007:470-482): primary keys whose code starts with
the prefix, in index order, limited to parentLimit * 4. -/
def searchByCodeCodesM (env : QueryEnv) (codePfx : String) (parentLimit : Nat) :
    List String :=
  (((dexieByCode env.store).filter (fun r => strStarts r.code codePfx)).map
      (·.code)).take (parentLimit * CODE_SEARCH_MULT)

/-- JS new Set(...) iteration: first occurrence wins, duplicates dropped. -/
def jsSetOf (cs : List String) : List String :=
  cs.foldl (fun acc c => if acc.contains c then acc else acc ++ [c]) []

/-- intersectCodes (part_007:506-514). -/
def intersectCodesM (a b : Option (List String)) : List String :=
  match a, b with
  | some a, some b => a.filter (fun c => b.contains c)
  | some a, none => a
  | none, some b => b
  | none, none => []

/-- Truthiness of a highlight payload (null and the empty string are falsy). -/
def isTruthyStr : Option String → Bool
  | some s => s ≠ ""
  | none => false

/-- The highlightByCode map (part_007:449-458): last truthy highlight wins. -/
def highlightFor (hits : List FlexHit) (c : String) : Option String :=
  hits.foldl
    (fun acc h => if h.id = c ∧ isTruthyStr h.highlight then h.highlight else acc)
    none

/-- One emitted result row (part_007:541-546). -/
def decorateRow (hl : String → Option String) (r : CustomsRecord) : CustomsRecord :=
  { r with
    highlightedDescription :=
      match hl r.code with
      | some s => some s
      | none => r.highlightedDescription }

/-- matchedRootCodes (part_007:527-532): the set of root codes of the byCode
rows of the final codes. -/
def matchedRootCodes (cd : CachedData) (codes : List String) : List String :=
  jsSetOf (codes.filterMap
    (fun c => (lastWithCode cd.cache c).map (fun row => row.rootCode.getD row.code)))

/-- The emit loop of buildSearchResults (part_007:535-549): push decorated
rows and return as soon as itemLimit is reached. -/
def emitLoop (hl : String → Option String) (itemLimit : Nat) :
    List CustomsRecord → List CustomsRecord → List CustomsRecord
  | [], acc => acc
  | r :: rest, acc =>
    let acc2 := acc ++ [decorateRow hl r]
    if itemLimit ≤ acc2.length then acc2 else emitLoop hl itemLimit rest acc2

/-- buildSearchResults (part_007:516-551). -/
def buildSearchResultsM (cd : CachedData) (codes : List String)
    (hl : String → Option String) (itemLimit : Nat) : List CustomsRecord :=
  let matched := matchedRootCodes cd codes
  if matched.isEmpty then []
  else
    emitLoop hl itemLimit
      ((cd.rootOrder.filter (fun root => matched.contains root)).flatMap
        (fun root => bucketOf cd.byRoot root))
      []

/-- searchByFields (part_007:417-468).  hits is the normalised hit list the
FlexSearch description index returns for descQ (consulted only when the
trimmed description query is non-empty); the Bool is the logged-diagnostic
flag, and every caught failure surfaces as an empty list. -/
def searchByFieldsM (env : QueryEnv) (idPfx descQ : String)
    (hits : List FlexHit) (parentLimit itemLimit : Nat) :
    List CustomsRecord × Bool :=
  let codePfx := strTrim idPfx
  let descTrim := strTrim descQ
  let hasCode := 0 < strLen codePfx
  let hasDesc := 0 < strLen descTrim
  if ¬hasCode ∧ ¬hasDesc then
    ((getAllDataM env).1.take (min itemLimit MAX_ALL_DATA), (getAllDataM env).2)
  else
    let cd := (ensureAllDataCacheM env).1
    let logged := (ensureAllDataCacheM env).2
    if cd.cache.isEmpty then ([], true)
    else if hasDesc ∧ env.indexFail then ([], true)
    else
      let codeSet : Option (List String) :=
        if hasCode then some (jsSetOf (searchByCodeCodesM env codePfx parentLimit))
        else none
      let descHits : Option (List FlexHit) := if hasDesc then some hits else none
      let descCodes : Option (List String) :=
        descHits.map (fun hs => jsSetOf (hs.map (·.id)))
      let finalCodes := intersectCodesM codeSet descCodes
      if finalCodes.isEmpty then ([], logged)
      else
        (buildSearchResultsM cd finalCodes (highlightFor (descHits.getD []))
            itemLimit,
          logged)

/-! ## Lemmas about the cache grouping and the emit loop -/

theorem foldl_pushBucket_bucketOf (key : CustomsRecord → String) :
    ∀ (rows : List CustomsRecord) (bs0 : List (String × List CustomsRecord))
      (c : String),
      bucketOf (rows.foldl (fun bs r => pushBucket bs (key r) r) bs0) c
        = bucketOf bs0 c ++ rows.filter (fun r => key r = c) := by
  intro rows
  induction rows with
  | nil => intro bs0 c; simp
  | cons r rows ih =>
    intro bs0 c
    rw [List.foldl_cons, ih, bucketOf_pushBucket, List.filter_cons]
    by_cases h : key r = c
    · rw [if_pos h]
      simp [h]
    · rw [if_neg h]
      simp [h]

theorem rootBuckets_bucketOf (ks : List String) (rows : List CustomsRecord)
    (c : String) :
    bucketOf (rootBuckets ks rows) c
      = rows.filter (fun r => findRoot ks r.code = c) := by
  rw [rootBuckets, foldl_pushBucket_bucketOf]
  rfl

theorem pushBucket_keys (bs : List (String × List CustomsRecord)) (c : String)
    (r : CustomsRecord) :
    (pushBucket bs c r).map Prod.fst =
      if c ∈ bs.map Prod.fst then bs.map Prod.fst else bs.map Prod.fst ++ [c] := by
  induction bs with
  | nil => simp [pushBucket]
  | cons head rest ih =>
    obtain ⟨c0, rs⟩ := head
    rw [pushBucket]
    by_cases h0 : c0 = c
    · rw [if_pos h0]
      have : c ∈ ((c0, rs) :: rest).map Prod.fst := by simp [h0]
      rw [if_pos this]
      simp
    · rw [if_neg h0, List.map_cons, List.map_cons, ih]
      have hmem : (c ∈ ((c0, rs) :: rest).map Prod.fst) ↔ (c ∈ rest.map Prod.fst) := by
        simp only [List.map_cons, List.mem_cons]
        constructor
        · rintro (h | h)
          · exact absurd h.symm h0
          · exact h
        · exact Or.inr
      by_cases h1 : c ∈ rest.map Prod.fst
      · rw [if_pos h1, if_pos (List.mem_cons_of_mem _ h1)]
      · have hcc : c ∉ (c0, rs).1 :: rest.map Prod.fst := by
          intro hc
          rcases List.mem_cons.mp hc with h | h
          · exact h0 h.symm
          · exact h1 h
        rw [if_neg h1, if_neg hcc]
        simp

theorem foldl_pushBucket_keys_nodup (key : CustomsRecord → String) :
    ∀ (rows : List CustomsRecord) (bs0 : List (String × List CustomsRecord)),
      (bs0.map Prod.fst).Nodup →
      ((rows.foldl (fun bs r => pushBucket bs (key r) r) bs0).map Prod.fst).Nodup := by
  intro rows
  induction rows with
  | nil => intro bs0 h; exact h
  | cons r rows ih =>
    intro bs0 h
    rw [List.foldl_cons]
    apply ih
    rw [pushBucket_keys]
    by_cases hm : key r ∈ bs0.map Prod.fst
    · rw [if_pos hm]; exact h
    · rw [if_neg hm]
      rw [List.nodup_append]
      exact ⟨h, List.nodup_singleton _, fun x hx hk => hm ((List.mem_singleton.mp hk) ▸ hx)⟩

theorem rootBuckets_keys_nodup (ks : List String) (rows : List CustomsRecord) :
    ((rootBuckets ks rows).map Prod.fst).Nodup :=
  foldl_pushBucket_keys_nodup _ rows [] (by simp)

theorem jsSetOf_go_mem (c : String) :
    ∀ (cs acc : List String),
      (c ∈ cs.foldl (fun acc c => if acc.contains c then acc else acc ++ [c]) acc)
        ↔ c ∈ acc ∨ c ∈ cs := by
  intro cs
  induction cs with
  | nil => intro acc; simp
  | cons d cs ih =>
    intro acc
    rw [List.foldl_cons]
    rw [ih]
    by_cases hd : acc.contains d
    · rw [if_pos hd]
      have hdm : d ∈ acc := List.mem_of_elem_eq_true hd
      constructor
      · rintro (h | h)
        · exact Or.inl h
        · exact Or.inr (List.mem_cons_of_mem d h)
      · rintro (h | h)
        · exact Or.inl h
        · rcases List.mem_cons.mp h with h | h
          · exact Or.inl (h ▸ hdm)
          · exact Or.inr h
    · rw [if_neg hd]
      constructor
      · rintro (h | h)
        · rcases List.mem_append.mp h with h | h
          · exact Or.inl h
          · exact Or.inr (List.mem_cons.mpr (Or.inl (List.mem_singleton.mp h)))
        · exact Or.inr (List.mem_cons_of_mem d h)
      · rintro (h | h)
        · exact Or.inl (List.mem_append.mpr (Or.inl h))
        · rcases List.mem_cons.mp h with h | h
          · exact Or.inl (List.mem_append.mpr (Or.inr (List.mem_singleton.mpr h)))
          · exact Or.inr h

theorem jsSetOf_mem {c : String} {cs : List String} :
    c ∈ jsSetOf cs ↔ c ∈ cs := by
  rw [jsSetOf, jsSetOf_go_mem]
  simp

theorem decorateRow_code (hl : String → Option String) (r : CustomsRecord) :
    (decorateRow hl r).code = r.code :=
  rfl

theorem emitLoop_eq_take (hl : String → Option String) (il : Nat) :
    ∀ (rows acc : List CustomsRecord),
      ∃ n, emitLoop hl il rows acc = acc ++ (rows.take n).map (decorateRow hl) := by
  intro rows
  induction rows with
  | nil => intro acc; exact ⟨0, by simp [emitLoop]⟩
  | cons r rest ih =>
    intro acc
    rw [emitLoop]
    by_cases hstop : il ≤ (acc ++ [decorateRow hl r]).length
    · rw [if_pos hstop]
      exact ⟨1, by simp⟩
    · rw [if_neg hstop]
      obtain ⟨n, hn⟩ := ih (acc ++ [decorateRow hl r])
      refine ⟨n + 1, ?_⟩
      rw [hn, List.take_succ_cons, List.map_cons, List.append_assoc]
      rfl

theorem emitLoop_all (hl : String → Option String) (il : Nat) :
    ∀ (rows acc : List CustomsRecord),
      (emitLoop hl il rows acc).length < il →
      emitLoop hl il rows acc = acc ++ rows.map (decorateRow hl) := by
  intro rows
  induction rows with
  | nil => intro acc _; simp [emitLoop]
  | cons r rest ih =>
    intro acc hlen
    rw [emitLoop] at hlen ⊢
    by_cases hstop : il ≤ (acc ++ [decorateRow hl r]).length
    · rw [if_pos hstop] at hlen
      simp only [List.length_append, List.length_cons] at hlen hstop
      omega
    · rw [if_neg hstop] at hlen ⊢
      rw [ih _ hlen, List.map_cons, List.append_assoc]
      rfl

/-! ## No duplicate rows in search results (C10) -/

theorem withRoot_code (ks : List String) (r : CustomsRecord) :
    (withRoot ks r).code = r.code :=
  rfl

theorem buildCachedData_cache_codes (rows : List CustomsRecord) :
    ((buildCachedData rows).cache.map (·.code)).Perm (rows.map (·.code)) := by
  rw [buildCachedData]
  simp only [List.map_map]
  have : ((·.code) ∘ withRoot ((List.insertionSort codeLE rows).map (·.code)))
      = fun r : CustomsRecord => r.code := rfl
  rw [this]
  exact (List.perm_insertionSort codeLE rows).map _

theorem buildCachedData_rootOrder_nodup (rows : List CustomsRecord) :
    (buildCachedData rows).rootOrder.Nodup :=
  rootBuckets_keys_nodup _ _

theorem flatMap_rootBuckets_nodup (ks : List String) {rows : List CustomsRecord}
    (hnd : (rows.map (·.code)).Nodup) :
    ∀ {sel : List String}, sel.Nodup →
      ((sel.flatMap (fun root => bucketOf (rootBuckets ks rows) root)).map
          (·.code)).Nodup := by
  intro sel
  induction sel with
  | nil => intro _; simp
  | cons root sel' ih =>
    intro hsel
    rw [List.flatMap_cons, List.map_append, List.nodup_append]
    obtain ⟨hnotin, hsel'⟩ := List.nodup_cons.mp hsel
    refine ⟨?_, ih hsel', ?_⟩
    · rw [rootBuckets_bucketOf]
      exact hnd.sublist ((List.filter_sublist rows).map _)
    · intro c hc hc'
      rw [rootBuckets_bucketOf] at hc
      obtain ⟨r, hr, hrc⟩ := List.mem_map.mp hc
      have hr1 : r ∈ rows := List.mem_of_mem_filter hr
      have hr2 : findRoot ks r.code = root := by
        have := List.of_mem_filter hr
        simpa using this
      obtain ⟨r', hr', hrc'⟩ := List.mem_map.mp hc'
      obtain ⟨root', hroot', hbr'⟩ := List.mem_flatMap.mp hr'
      rw [rootBuckets_bucketOf] at hbr'
      have hr'1 : r' ∈ rows := List.mem_of_mem_filter hbr'
      have hr'2 : findRoot ks r'.code = root' := by
        have := List.of_mem_filter hbr'
        simpa using this
      have heq : r = r' :=
        List.inj_on_of_nodup_map hnd hr1 hr'1 (hrc.trans hrc'.symm)
      rw [← heq] at hr'2
      rw [hr2] at hr'2
      exact hnotin (hr'2 ▸ hroot')

theorem buildSearchResultsM_nodup {rows : List CustomsRecord}
    (hnd : (rows.map (·.code)).Nodup) (codes : List String)
    (hl : String → Option String) (il : Nat) :
    ((buildSearchResultsM (buildCachedData rows) codes hl il).map (·.code)).Nodup := by
  rw [buildSearchResultsM]
  by_cases hm : (matchedRootCodes (buildCachedData rows) codes).isEmpty
  · rw [if_pos hm]
    simp
  · rw [if_neg hm]
    obtain ⟨n, hn⟩ := emitLoop_eq_take hl il
      (((buildCachedData rows).rootOrder.filter
        (fun root => (matchedRootCodes (buildCachedData rows) codes).contains root)).flatMap
        (fun root => bucketOf (buildCachedData rows).byRoot root)) []
    rw [hn, List.nil_append, List.map_map]
    have hcomp : ((·.code) ∘ decorateRow hl) = fun r : CustomsRecord => r.code := rfl
    rw [hcomp, List.map_take]
    have hcachecodes : ((buildCachedData rows).cache.map (·.code)).Nodup :=
      ((buildCachedData_cache_codes rows).nodup_iff).mpr hnd
    have hsel : ((buildCachedData rows).rootOrder.filter
        (fun root => (matchedRootCodes (buildCachedData rows) codes).contains root)).Nodup :=
      (buildCachedData_rootOrder_nodup rows).filter _
    have hstream := flatMap_rootBuckets_nodup
      ((List.insertionSort codeLE rows).map (·.code)) hcachecodes hsel
    exact hstream.sublist (List.take_sublist _ _)

/-- C10: for every query the flat row list returned by searchByFields carries
no two rows with the same code, given that the store (keyed by code) holds
distinct codes. -/
theorem C10_searchByFields_no_duplicates (env : QueryEnv)
    (hnd : (env.store.map (·.code)).Nodup) (idPfx descQ : String)
    (hits : List FlexHit) (pl il : Nat) :
    ((searchByFieldsM env idPfx descQ hits pl il).1.map (·.code)).Nodup := by
  simp only [searchByFieldsM]
  by_cases hq : ¬ (0 < strLen (strTrim idPfx)) ∧ ¬ (0 < strLen (strTrim descQ))
  · rw [if_pos hq]
    by_cases hsf : env.storageFail = true
    · simp [getAllDataM, ensureAllDataCacheM, hsf]
    · have hsf' : env.storageFail = false := Bool.eq_false_iff.mpr hsf
      simp only [getAllDataM, ensureAllDataCacheM, hsf', Bool.false_eq_true,
        if_false, if_neg]
      rw [List.map_take]
      exact (((buildCachedData_cache_codes env.store).nodup_iff).mpr hnd).sublist
        (List.take_sublist _ _)
  · rw [if_neg hq]
    by_cases hce : (ensureAllDataCacheM env).1.cache.isEmpty
    · rw [if_pos hce]
      simp
    · rw [if_neg hce]
      by_cases hix : (0 < strLen (strTrim descQ)) ∧ env.indexFail = true
      · rw [if_pos hix]
        simp
      · rw [if_neg hix]
        have hsf : env.storageFail = false := by
          by_contra h
          have h' : env.storageFail = true := by
            rcases Bool.eq_false_or_eq_true env.storageFail with hb | hb
            · exact hb
            · exact absurd hb h
          rw [ensureAllDataCacheM, if_pos h'] at hce
          simp at hce
        have hcd : (ensureAllDataCacheM env).1 = buildCachedData env.store := by
          rw [ensureAllDataCacheM, if_neg (by rw [hsf]; exact Bool.false_ne_true)]
        rw [hcd]
        by_cases hfc : (intersectCodesM
            (if 0 < strLen (strTrim idPfx) then
              some (jsSetOf (searchByCodeCodesM env (strTrim idPfx) pl))
            else none)
            (Option.map (fun hs => jsSetOf (hs.map (·.id)))
              (if 0 < strLen (strTrim descQ) then some hits else none))).isEmpty
        · rw [if_pos hfc]
          simp
        · rw [if_neg hfc]
          exact buildSearchResultsM_nodup hnd _ _ il

/-! ## The combined-filter subset property (C2) -/

theorem mem_matchedRootCodes {cd : CachedData} {codes : List String} {ρ : String} :
    ρ ∈ matchedRootCodes cd codes ↔
      ∃ c ∈ codes, ((lastWithCode cd.cache c).map
        (fun row => row.rootCode.getD row.code)) = some ρ := by
  rw [matchedRootCodes, jsSetOf_mem, List.mem_filterMap]

theorem matchedRootCodes_mono {cd : CachedData} {codes1 codes2 : List String}
    (h : ∀ c ∈ codes1, c ∈ codes2) :
    ∀ ρ ∈ matchedRootCodes cd codes1, ρ ∈ matchedRootCodes cd codes2 := by
  intro ρ hρ
  obtain ⟨c, hc, hg⟩ := mem_matchedRootCodes.mp hρ
  exact mem_matchedRootCodes.mpr ⟨c, h c hc, hg⟩

theorem mem_buildSearchResultsM {cd : CachedData} {codes : List String}
    {hl : String → Option String} {il : Nat} {r : CustomsRecord}
    (hr : r ∈ buildSearchResultsM cd codes hl il) :
    ∃ root x, root ∈ cd.rootOrder ∧ root ∈ matchedRootCodes cd codes ∧
      x ∈ bucketOf cd.byRoot root ∧ r = decorateRow hl x := by
  rw [buildSearchResultsM] at hr
  by_cases hm : (matchedRootCodes cd codes).isEmpty
  · rw [if_pos hm] at hr
    cases hr
  · rw [if_neg hm] at hr
    obtain ⟨n, hn⟩ := emitLoop_eq_take hl il
      ((cd.rootOrder.filter
        (fun root => (matchedRootCodes cd codes).contains root)).flatMap
        (fun root => bucketOf cd.byRoot root)) []
    rw [hn, List.nil_append] at hr
    obtain ⟨x, hx, hxr⟩ := List.mem_map.mp hr
    have hx' := List.mem_of_mem_take hx
    obtain ⟨root, hroot, hxb⟩ := List.mem_flatMap.mp hx'
    refine ⟨root, x, List.mem_of_mem_filter hroot, ?_, hxb, hxr.symm⟩
    have := List.of_mem_filter hroot
    exact List.mem_of_elem_eq_true this

theorem buildSearchResultsM_complete {cd : CachedData} {codes : List String}
    {hl : String → Option String} {il : Nat}
    (hlen : (buildSearchResultsM cd codes hl il).length < il) :
    ∀ root ∈ cd.rootOrder, root ∈ matchedRootCodes cd codes →
      ∀ x ∈ bucketOf cd.byRoot root,
        decorateRow hl x ∈ buildSearchResultsM cd codes hl il := by
  intro root hroot hmatch x hx
  rw [buildSearchResultsM] at hlen ⊢
  by_cases hm : (matchedRootCodes cd codes).isEmpty
  · exact absurd hmatch (by rw [List.isEmpty_iff.mp hm]; exact List.not_mem_nil root)
  · rw [if_neg hm] at hlen ⊢
    rw [emitLoop_all hl il _ [] hlen, List.nil_append]
    apply List.mem_map_of_mem
    apply List.mem_flatMap.mpr
    exact ⟨root, List.mem_filter.mpr ⟨hroot, List.elem_eq_true_of_mem hmatch⟩, hx⟩

/-- C2 (amended: provided the codePrefix-only call is not truncated by
itemLimit): every record returned by searchByFields(codePrefix, textQuery)
also appears, by code, in the result of searchByFields(codePrefix, "") with
the same limits. -/
theorem C2_combined_subset (env : QueryEnv) (idPfx descQ : String)
    (hits : List FlexHit) (pl il : Nat)
    (hcode : 0 < strLen (strTrim idPfx))
    (hdesc : 0 < strLen (strTrim descQ))
    (huntrunc : (searchByFieldsM env idPfx "" [] pl il).1.length < il) :
    ∀ r ∈ (searchByFieldsM env idPfx descQ hits pl il).1,
      ∃ r' ∈ (searchByFieldsM env idPfx "" [] pl il).1, r'.code = r.code := by
  intro r hr
  have h0 : ¬ (0 < strLen (strTrim "")) := by decide
  by_cases hsf : env.storageFail = true
  · simp [searchByFieldsM, ensureAllDataCacheM, hsf, hcode, hdesc] at hr
  · have hsf' : env.storageFail = false := by
      rcases Bool.eq_false_or_eq_true env.storageFail with hb | hb
      · exact absurd hb hsf
      · exact hb
    by_cases hce : ((buildCachedData env.store).cache).isEmpty
    · simp [searchByFieldsM, ensureAllDataCacheM, hsf', hcode, hdesc, hce] at hr
    · by_cases hix : env.indexFail = true
      · simp [searchByFieldsM, ensureAllDataCacheM, hsf', hcode, hdesc, hce,
          hix] at hr
      · have hix' : env.indexFail = false := by
          rcases Bool.eq_false_or_eq_true env.indexFail with hb | hb
          · exact absurd hb hix
          · exact hb
        simp only [searchByFieldsM, ensureAllDataCacheM, hsf', Bool.false_eq_true,
          if_false, hcode, hdesc, hix', not_true, false_and, and_false,
          if_true, ite_true, ite_false, not_false_iff, and_self,
          if_neg, Option.map_some, Option.getD_some] at hr
        rw [if_neg hce] at hr
        simp only [Option.map_some', intersectCodesM] at hr
        by_cases hfc : (((jsSetOf (searchByCodeCodesM env (strTrim idPfx) pl)).filter
            (fun c => (jsSetOf (hits.map (·.id))).contains c)).isEmpty = true)
        · rw [if_pos hfc] at hr
          simp at hr
        · rw [if_neg hfc] at hr
          obtain ⟨root, x, hroot, hmatchC, hxb, hrx⟩ := mem_buildSearchResultsM hr
          have hS : ¬ ((jsSetOf (searchByCodeCodesM env (strTrim idPfx) pl)).isEmpty
              = true) := by
            intro h
            apply hfc
            rw [List.isEmpty_iff] at h ⊢
            rw [h]
            rfl
          have hPeq : searchByFieldsM env idPfx "" [] pl il
              = (buildSearchResultsM (buildCachedData env.store)
                  (jsSetOf (searchByCodeCodesM env (strTrim idPfx) pl))
                  (highlightFor []) il, false) := by
            simp only [searchByFieldsM, ensureAllDataCacheM, hsf',
              Bool.false_eq_true, if_false, hcode, h0, not_true, not_false_iff,
              false_and, and_false, and_self, ite_false, ite_true,
              Option.map_none', Option.getD_none, intersectCodesM]
            rw [if_neg hce, if_neg hS]
          have hlenP : (buildSearchResultsM (buildCachedData env.store)
              (jsSetOf (searchByCodeCodesM env (strTrim idPfx) pl))
              (highlightFor []) il).length < il := by
            rw [hPeq] at huntrunc
            exact huntrunc
          have hmatchP : root ∈ matchedRootCodes (buildCachedData env.store)
              (jsSetOf (searchByCodeCodesM env (strTrim idPfx) pl)) :=
            matchedRootCodes_mono (fun c hc => List.mem_of_mem_filter hc)
              root hmatchC
          refine ⟨decorateRow (highlightFor []) x, ?_, ?_⟩
          · rw [hPeq]
            exact buildSearchResultsM_complete hlenP root hroot hmatchP x hxb
          · rw [decorateRow_code, hrx, decorateRow_code]

/-! ## Empty-query cap (C6) and failure semantics (C7) -/

/-- C6: when both query fields trim to the empty string, searchByFields
returns the full record list capped at min(itemLimit, 10000); in particular
the row count never exceeds that bound. -/
theorem C6_empty_query_capped (env : QueryEnv) (idPfx descQ : String)
    (hits : List FlexHit) (pl il : Nat)
    (h1 : strTrim idPfx = "") (h2 : strTrim descQ = "") :
    (searchByFieldsM env idPfx descQ hits pl il).1
        = (getAllDataM env).1.take (min il MAX_ALL_DATA)
    ∧ (searchByFieldsM env idPfx descQ hits pl il).1.length ≤ min il 10000 := by
  have hq1 : ¬ (0 < strLen (strTrim idPfx)) := by rw [h1]; decide
  have hq2 : ¬ (0 < strLen (strTrim descQ)) := by rw [h2]; decide
  have heq : (searchByFieldsM env idPfx descQ hits pl il).1
      = (getAllDataM env).1.take (min il MAX_ALL_DATA) := by
    simp only [searchByFieldsM]
    rw [if_pos ⟨hq1, hq2⟩]
  refine ⟨heq, ?_⟩
  rw [heq]
  have : MAX_ALL_DATA = 10000 := rfl
  rw [List.length_take, this]
  omega

theorem searchByFieldsM_storageFail (env : QueryEnv)
    (hsf : env.storageFail = true) (idPfx descQ : String) (hits : List FlexHit)
    (pl il : Nat) :
    searchByFieldsM env idPfx descQ hits pl il = ([], true) := by
  by_cases hq : ¬ (0 < strLen (strTrim idPfx)) ∧ ¬ (0 < strLen (strTrim descQ))
  · simp only [searchByFieldsM]
    rw [if_pos hq]
    simp [getAllDataM, ensureAllDataCacheM, hsf]
  · simp only [searchByFieldsM]
    rw [if_neg hq]
    simp [ensureAllDataCacheM, hsf]

theorem searchByFieldsM_indexFail (env : QueryEnv) {descQ : String}
    (hix : env.indexFail = true) (hdesc : 0 < strLen (strTrim descQ))
    (idPfx : String) (hits : List FlexHit) (pl il : Nat) :
    searchByFieldsM env idPfx descQ hits pl il = ([], true) := by
  by_cases hsf : env.storageFail = true
  · exact searchByFieldsM_storageFail env hsf idPfx descQ hits pl il
  · have hsf' : env.storageFail = false := by
      rcases Bool.eq_false_or_eq_true env.storageFail with hb | hb
      · exact absurd hb hsf
      · exact hb
    have hq : ¬ (¬ (0 < strLen (strTrim idPfx)) ∧ ¬ (0 < strLen (strTrim descQ))) :=
      fun h => h.2 hdesc
    simp only [searchByFieldsM]
    rw [if_neg hq]
    by_cases hce : ((ensureAllDataCacheM env).1.cache).isEmpty
    · rw [if_pos hce]
    · rw [if_neg hce, if_pos ⟨hdesc, hix⟩]

/-- C7: a storage failure, or an index failure on a query that consults the
index, is caught: searchByFields resolves to the empty list with a logged
diagnostic, and getAllData does the same on a storage failure; neither
operation propagates the exception. -/
theorem C7_failures_caught (env : QueryEnv) (idPfx descQ : String)
    (hits : List FlexHit) (pl il : Nat)
    (h : env.storageFail = true ∨
      (env.indexFail = true ∧ 0 < strLen (strTrim descQ))) :
    searchByFieldsM env idPfx descQ hits pl il = ([], true)
    ∧ (env.storageFail = true → getAllDataM env = ([], true)) := by
  refine ⟨?_, ?_⟩
  · rcases h with hsf | ⟨hix, hdesc⟩
    · exact searchByFieldsM_storageFail env hsf idPfx descQ hits pl il
    · exact searchByFieldsM_indexFail env hix hdesc idPfx hits pl il
  · intro hsf
    simp [getAllDataM, ensureAllDataCacheM, hsf]

/-! ## Concrete instances for the query-engine claims -/

/-- A concrete store: root "01" with child "011", and root "02" whose
description ("gjalle") is the one the text query hits. -/
def searchStore : List CustomsRecord :=
  [mkRec "01" "x", mkRec "011" "y", mkRec "02" "gjalle"]

/-- The corresponding healthy environment. -/
def searchEnv : QueryEnv :=
  ⟨searchStore, false, false⟩

/-- The hit list the description index returns for the query "gjalle". -/
def gjalleHits : List FlexHit :=
  [⟨"02", some "hl"⟩]

/-- C2 counterexample: with itemLimit 2 the codePrefix-only call is truncated
inside root "01" and never reaches root "02", while the combined call (whose
only matched root is "02") returns the "02" row: the combined result is not a
subset of the codePrefix-only result. -/
theorem C2_counterexample :
    ¬ (∀ r ∈ (searchByFieldsM searchEnv "0" "gjalle" gjalleHits 200 2).1,
        ∃ r' ∈ (searchByFieldsM searchEnv "0" "" [] 200 2).1,
          r'.code = r.code) := by
  decide

/-- Witness for C2 at itemLimit 4000, where no truncation occurs: the first
row of the combined result appears by code in the codePrefix-only result. -/
theorem C2_witness :
    ∃ r' ∈ (searchByFieldsM searchEnv "0" "" [] 200 4000).1,
      r'.code = ((searchByFieldsM searchEnv "0" "gjalle" gjalleHits
        200 4000).1.getD 0 (mkRec "" "")).code :=
  C2_combined_subset searchEnv "0" "gjalle" gjalleHits 200 4000
    (by decide) (by decide) (by decide)
    ((searchByFieldsM searchEnv "0" "gjalle" gjalleHits 200 4000).1.getD 0
      (mkRec "" ""))
    (by decide)

/-- Witness for C6: whitespace-only prefix and empty text, itemLimit 2. -/
theorem C6_witness :
    (searchByFieldsM searchEnv " " "" [] 200 2).1
        = (getAllDataM searchEnv).1.take (min 2 MAX_ALL_DATA)
    ∧ (searchByFieldsM searchEnv " " "" [] 200 2).1.length ≤ min 2 10000 :=
  C6_empty_query_capped searchEnv " " "" [] 200 2 (by decide) (by decide)

/-- Witness for C7: a storage failure yields empty results and a logged
diagnostic. -/
theorem C7_witness :
    searchByFieldsM ⟨searchStore, true, false⟩ "0" "gjalle" gjalleHits 200 10
        = ([], true)
    ∧ ((⟨searchStore, true, false⟩ : QueryEnv).storageFail = true →
        getAllDataM ⟨searchStore, true, false⟩ = ([], true)) :=
  C7_failures_caught ⟨searchStore, true, false⟩ "0" "gjalle" gjalleHits 200 10
    (Or.inl rfl)

/-- Witness for C10 on the concrete store and a combined query. -/
theorem C10_witness :
    ((searchByFieldsM searchEnv "0" "gjalle" gjalleHits 200 2).1.map
        (·.code)).Nodup :=
  C10_searchByFields_no_duplicates searchEnv (by decide) "0" "gjalle"
    gjalleHits 200 2

/-! ## initializeData (src/unnamed/part_007:222-318, src/lib/database.ts:105-201)

The bundled dataset enters as raw records whose fields may be missing or
non-numeric; initializeData normalises them and replaces the store inside one
transaction.  Failures are modelled as an injected load failure (the
dataset import rejects) or write failure (a storage error in the transaction);
Dexie rolls a failed transaction back, so the store is left unchanged.  A
duplicate primary key (code) among the normalised rows likewise aborts the
bulkAdd and rolls the transaction back. -/

/-- A raw rate field, classified by the JS test Number.isFinite(Number(v)):
fin covers numbers, numeric strings and null (Number(null) = 0); nonFin
covers undefined/missing fields, non-numeric strings, NaN and infinities. -/
inductive RawNum where
  | fin (x : Int)
  | nonFin
deriving DecidableEq, Repr

/-- The coercion Number.isFinite(Number(v)) ? Number(v) : 0 (part_007:266). -/
def coerceRate : RawNum → Int
  | .fin x => x
  | .nonFin => 0

/-- A record of the bundled dataset before normalisation. -/
structure RawRecord where
  code : Option String
  description : Option String
  percentage : RawNum
  cefta : RawNum
  msa : RawNum
  trmtl : RawNum
  tvsh : RawNum
  excise : RawNum
  validFrom : Option String
  uomCode : Option String
  fileUrl : Option String
  importMeasure : Option String
  exportMeasure : Option String
deriving DecidableEq, Repr

/-- The normalisation map of initializeData (part_007:263-279): missing code
and description become "", rate fields coerce through coerceRate, validFrom
defaults to "", uomCode and the tolerated extras default to null. -/
def normalizeRecord (d : RawRecord) : CustomsRecord :=
  { code := d.code.getD ""
    description := d.description.getD ""
    percentage := coerceRate d.percentage
    cefta := coerceRate d.cefta
    msa := coerceRate d.msa
    trmtl := coerceRate d.trmtl
    tvsh := coerceRate d.tvsh
    excise := coerceRate d.excise
    validFrom := d.validFrom.getD ""
    uomCode := d.uomCode
    rootCode := none
    highlightedDescription := none
    fileUrl := d.fileUrl
    importMeasure := d.importMeasure
    exportMeasure := d.exportMeasure }

/-- A failure injected into initializeData. -/
inductive InitFailure where
  | loadFail
  | writeFail
deriving DecidableEq, Repr

/-- The world initializeData runs against. -/
structure InitEnv where
  store : List CustomsRecord
  dataset : List RawRecord
  failure : Option InitFailure
deriving Repr

/-- The progress phases (InitializationPhase in the source). -/
inductive InitPhase where
  | loadData
  | indexing
  | done
  | cached
  | error
deriving DecidableEq, Repr

/-- What one initializeData call did: the resulting store contents, the
distinct progress phases reported in order, the resolved Boolean, and whether
the bulk write committed. -/
structure InitOutcome where
  store : List CustomsRecord
  phases : List InitPhase
  returned : Bool
  bulkWrote : Bool
deriving DecidableEq, Repr

/-- initializeData (part_007:222-318): a non-forced call over a non-empty
store reports cached and resolves false without touching the store;
otherwise the dataset is normalised and written by clear + chunked bulkAdd
inside one transaction, which commits atomically on success and rolls back
on a write failure or duplicate primary key; the error path reports the
error phase and resolves false. -/
def initializeDataM (env : InitEnv) (force : Bool) : InitOutcome :=
  let existing := env.store.length
  if force = false ∧ 0 < existing then
    { store := env.store, phases := [.cached], returned := false,
      bulkWrote := false }
  else
    match env.failure with
    | some .loadFail =>
      { store := env.store, phases := [.loadData, .error], returned := false,
        bulkWrote := false }
    | some .writeFail =>
      { store := env.store, phases := [.loadData, .indexing, .error],
        returned := false, bulkWrote := false }
    | none =>
      let normalized := env.dataset.map normalizeRecord
      if (normalized.map (·.code)).Nodup then
        { store := normalized, phases := [.loadData, .indexing, .done],
          returned := true, bulkWrote := true }
      else
        { store := env.store, phases := [.loadData, .indexing, .error],
          returned := false, bulkWrote := false }

/-- C4: with data already persisted, a non-forced initializeData performs no
bulk write, leaves the store unchanged, reports the cached phase and resolves
false; a second such call does the same, and in general initializeData
resolves true exactly when the bulk write happened. -/
theorem C4_initializeData_idempotent (env : InitEnv)
    (h : 0 < env.store.length) :
    (initializeDataM env false).bulkWrote = false
    ∧ (initializeDataM env false).store = env.store
    ∧ (initializeDataM env false).phases = [InitPhase.cached]
    ∧ (initializeDataM env false).returned = false
    ∧ (initializeDataM { env with store := (initializeDataM env false).store }
        false).bulkWrote = false
    ∧ (initializeDataM { env with store := (initializeDataM env false).store }
        false).store = (initializeDataM env false).store
    ∧ (∀ (env' : InitEnv) (force : Bool),
        (initializeDataM env' force).returned
          = (initializeDataM env' force).bulkWrote) := by
  have he : initializeDataM env false =
      { store := env.store, phases := [.cached], returned := false,
        bulkWrote := false } := by
    rw [initializeDataM, if_pos ⟨rfl, h⟩]
  have hgen : ∀ (env' : InitEnv) (force : Bool),
      (initializeDataM env' force).returned
        = (initializeDataM env' force).bulkWrote := by
    intro env' force
    rw [initializeDataM]
    by_cases hc : force = false ∧ 0 < env'.store.length
    · rw [if_pos hc]
    · rw [if_neg hc]
      rcases hf : env'.failure with _ | f
      · simp only []
        by_cases hnd : ((env'.dataset.map normalizeRecord).map (·.code)).Nodup
        · rw [if_pos hnd]
        · rw [if_neg hnd]
      · cases f <;> rfl
  refine ⟨by rw [he], by rw [he], by rw [he], by rw [he], ?_, ?_, hgen⟩
  · rw [he, initializeDataM, if_pos ⟨rfl, h⟩]
  · rw [he, initializeDataM, if_pos ⟨rfl, h⟩]

/-- Witness for C4 on a one-record store. -/
theorem C4_witness :
    (initializeDataM ⟨[mkRec "01" "a"], [], none⟩ false).bulkWrote = false
    ∧ (initializeDataM ⟨[mkRec "01" "a"], [], none⟩ false).store
        = ([mkRec "01" "a"] : List CustomsRecord)
    ∧ (initializeDataM ⟨[mkRec "01" "a"], [], none⟩ false).phases
        = [InitPhase.cached]
    ∧ (initializeDataM ⟨[mkRec "01" "a"], [], none⟩ false).returned = false
    ∧ (initializeDataM { (⟨[mkRec "01" "a"], [], none⟩ : InitEnv) with
        store := (initializeDataM ⟨[mkRec "01" "a"], [], none⟩ false).store }
        false).bulkWrote = false
    ∧ (initializeDataM { (⟨[mkRec "01" "a"], [], none⟩ : InitEnv) with
        store := (initializeDataM ⟨[mkRec "01" "a"], [], none⟩ false).store }
        false).store = (initializeDataM ⟨[mkRec "01" "a"], [], none⟩ false).store
    ∧ (∀ (env' : InitEnv) (force : Bool),
        (initializeDataM env' force).returned
          = (initializeDataM env' force).bulkWrote) :=
  C4_initializeData_idempotent ⟨[mkRec "01" "a"], [], none⟩ (by decide)

theorem initializeDataM_store_of_returned {env : InitEnv} {force : Bool}
    (hsucc : (initializeDataM env force).returned = true) :
    (initializeDataM env force).store = env.dataset.map normalizeRecord := by
  obtain ⟨store, dataset, failure⟩ := env
  rw [initializeDataM] at hsucc ⊢
  by_cases hc : force = false ∧ 0 < store.length
  · rw [if_pos hc] at hsucc
    cases hsucc
  · rw [if_neg hc] at hsucc ⊢
    rcases failure with _ | f
    · simp only [] at hsucc ⊢
      by_cases hnd : ((dataset.map normalizeRecord).map (·.code)).Nodup
      · rw [if_pos hnd]
      · rw [if_neg hnd] at hsucc
        cases hsucc
    · cases f <;> cases hsucc

/-- C5: after a successful initializeData, getAllData contains, for every
record of the bundled dataset, a record with the same code and the coerced
field values: non-finite rate fields become 0, missing code/description
become "", missing uomCode stays null. -/
theorem C5_roundTrip (env : InitEnv) (force : Bool)
    (hsucc : (initializeDataM env force).returned = true) :
    ∀ d ∈ env.dataset,
      ∃ r ∈ (getAllDataM ⟨(initializeDataM env force).store, false, false⟩).1,
        r.code = d.code.getD ""
        ∧ r.description = d.description.getD ""
        ∧ r.percentage = coerceRate d.percentage
        ∧ r.cefta = coerceRate d.cefta
        ∧ r.msa = coerceRate d.msa
        ∧ r.trmtl = coerceRate d.trmtl
        ∧ r.tvsh = coerceRate d.tvsh
        ∧ r.excise = coerceRate d.excise
        ∧ r.validFrom = d.validFrom.getD ""
        ∧ r.uomCode = d.uomCode
        ∧ (d.percentage = RawNum.nonFin → r.percentage = 0)
        ∧ (d.code = none → r.code = "")
        ∧ (d.uomCode = none → r.uomCode = none) := by
  intro d hd
  rw [initializeDataM_store_of_returned hsucc]
  have hmem1 : normalizeRecord d ∈ env.dataset.map normalizeRecord :=
    List.mem_map_of_mem normalizeRecord hd
  have hmem2 : normalizeRecord d ∈
      List.insertionSort codeLE (env.dataset.map normalizeRecord) :=
    (List.perm_insertionSort codeLE _).mem_iff.mpr hmem1
  refine ⟨withRoot ((List.insertionSort codeLE
      (env.dataset.map normalizeRecord)).map (·.code)) (normalizeRecord d),
    ?_, ?_⟩
  · show _ ∈ (ensureAllDataCacheM _).1.cache
    rw [ensureAllDataCacheM]
    rw [if_neg (by exact Bool.false_ne_true)]
    exact List.mem_map_of_mem _ hmem2
  · refine ⟨rfl, rfl, rfl, rfl, rfl, rfl, rfl, rfl, rfl, rfl, ?_, ?_, ?_⟩
    · intro h
      show coerceRate d.percentage = 0
      rw [h]
      rfl
    · intro h
      show d.code.getD "" = ""
      rw [h]
      rfl
    · intro h
      show d.uomCode = none
      exact h

/-- A raw record exercising the coercion rules (missing description and
validFrom, non-finite rates, missing uomCode). -/
def rawSample : RawRecord :=
  ⟨some "01", none, RawNum.nonFin, RawNum.fin 5, RawNum.nonFin, RawNum.fin 0,
    RawNum.fin 18, RawNum.nonFin, none, none, none, none, none⟩

/-- A small raw dataset exercising every coercion rule. -/
def rawDataset : List RawRecord :=
  [rawSample,
    ⟨none, some "Kafshe", RawNum.fin 10, RawNum.nonFin, RawNum.fin 2,
      RawNum.nonFin, RawNum.nonFin, RawNum.fin 3, some "2024-01-01",
      some "KG", none, none, none⟩]

/-- Witness for C5 on the sample raw record (forced load over an empty
store). -/
theorem C5_witness :
    ∃ r ∈ (getAllDataM ⟨(initializeDataM ⟨[], rawDataset, none⟩ true).store,
        false, false⟩).1,
      r.code = rawSample.code.getD ""
      ∧ r.description = rawSample.description.getD ""
      ∧ r.percentage = coerceRate rawSample.percentage
      ∧ r.cefta = coerceRate rawSample.cefta
      ∧ r.msa = coerceRate rawSample.msa
      ∧ r.trmtl = coerceRate rawSample.trmtl
      ∧ r.tvsh = coerceRate rawSample.tvsh
      ∧ r.excise = coerceRate rawSample.excise
      ∧ r.validFrom = rawSample.validFrom.getD ""
      ∧ r.uomCode = rawSample.uomCode
      ∧ (rawSample.percentage = RawNum.nonFin → r.percentage = 0)
      ∧ (rawSample.code = none → r.code = "")
      ∧ (rawSample.uomCode = none → r.uomCode = none) :=
  C5_roundTrip ⟨[], rawDataset, none⟩ true (by decide) rawSample (by decide)

/-- C8: when initializeData reaches the load and fails (an injected load or
write failure, or a duplicate primary key aborting the bulkAdd), it resolves
false, reports the error phase, and the store is all-or-nothing: entirely the
old records or entirely the new ones, never a mixture (with the transaction
rolled back it is in fact the old contents). -/
theorem C8_init_failure_atomic (env : InitEnv) (force : Bool)
    (hrun : ¬ (force = false ∧ 0 < env.store.length))
    (hfail : env.failure ≠ none ∨
      ¬ ((env.dataset.map normalizeRecord).map (·.code)).Nodup) :
    (initializeDataM env force).returned = false
    ∧ InitPhase.error ∈ (initializeDataM env force).phases
    ∧ ((initializeDataM env force).store = env.store ∨
        (initializeDataM env force).store = env.dataset.map normalizeRecord) := by
  rw [initializeDataM, if_neg hrun]
  rcases hf : env.failure with _ | f
  · rcases hfail with h | h
    · exact absurd hf h
    · simp only []
      rw [if_neg h]
      exact ⟨rfl, by simp, Or.inl rfl⟩
  · cases f
    · exact ⟨rfl, by simp, Or.inl rfl⟩
    · exact ⟨rfl, by simp, Or.inl rfl⟩

/-- Witness for C8: a write failure during a forced load. -/
theorem C8_witness :
    (initializeDataM ⟨[mkRec "01" "a"], rawDataset, some InitFailure.writeFail⟩
        true).returned = false
    ∧ InitPhase.error ∈ (initializeDataM
        ⟨[mkRec "01" "a"], rawDataset, some InitFailure.writeFail⟩ true).phases
    ∧ ((initializeDataM ⟨[mkRec "01" "a"], rawDataset,
          some InitFailure.writeFail⟩ true).store = [mkRec "01" "a"] ∨
        (initializeDataM ⟨[mkRec "01" "a"], rawDataset,
          some InitFailure.writeFail⟩ true).store
          = rawDataset.map normalizeRecord) :=
  C8_init_failure_atomic ⟨[mkRec "01" "a"], rawDataset, some InitFailure.writeFail⟩
    true (by decide) (Or.inl (by decide))

/-! ## Root derivation (C9)

Two root-derivation routines exist in the sources.  The prefix-based walk of
src/unnamed/part_007 (findRoot, modelled above as findRootWalk/findRoot)
always terminates because a resolved parent code is strictly shorter; this is
proved below as findRootWalk_fuel_stable.  The parentId-based variant of
src/lib/database.ts:518-530 (buildCachedData.findRootId) recurses through
byId before writing anything into its rootCache, so on a cyclic parentId
input the recursion never returns; it is modelled with fuel counting the
recursion depth (none = the computation did not complete within the fuel). -/

/-- The prefix walk computes the same root under any sufficient fuel: the
while loop of part_007's findRoot terminates for every input. -/
theorem findRootWalk_fuel_stable (ks : List String) :
    ∀ (f g : Nat) (curr : String), strLen curr ≤ f → strLen curr ≤ g →
      findRootWalk ks f curr = findRootWalk ks g curr := by
  intro f
  induction f with
  | zero =>
    intro g curr hf hg
    have h0 : strLen curr = 0 := Nat.le_zero.mp hf
    cases g with
    | zero => rfl
    | succ g =>
      rw [findRootWalk, findRootWalk]
      have : findParentCode curr ks = none := by
        rw [findParentCode, h0]
        rfl
      rw [this]
  | succ f ih =>
    intro g curr hf hg
    cases g with
    | zero =>
      have h0 : strLen curr = 0 := Nat.le_zero.mp hg
      rw [findRootWalk, findRootWalk]
      have : findParentCode curr ks = none := by
        rw [findParentCode, h0]
        rfl
      rw [this]
    | succ g =>
      rw [findRootWalk, findRootWalk]
      rcases hp : findParentCode curr ks with _ | p
      · rfl
      · obtain ⟨hmem, i, h1, h2, h3⟩ := findParentAux_some hp
        have hlen : strLen p < strLen curr := by
          rw [h3, strLen_strTake]
          omega
        exact ih g p (by omega) (by omega)

/-- A row of the parentId-keyed variant (id, parentId). -/
structure ParentRow where
  id : Int
  parentId : Option Int
deriving DecidableEq, Repr

/-- Lookup in the rootCache (a JS Map from id to resolved root id). -/
def cacheLookup (cache : List (Int × Int)) (i : Int) : Option Int :=
  match cache with
  | [] => none
  | (j, v) :: rest => if j = i then some v else cacheLookup rest i

/-- findRootId of the parentId variant (src/lib/database.ts:518-530), with
the rootCache threaded and fuel bounding the recursion depth: none means the
recursion did not return within the given depth.  A falsy parentId (null or
0) makes the row its own root; otherwise the function recurses into the
parent before caching anything for the current row. -/
def findRootIdF (byId : Int → Option ParentRow) :
    Nat → Option ParentRow → List (Int × Int) →
      Option (Option Int × List (Int × Int))
  | 0, _, _ => none
  | _ + 1, none, cache => some (none, cache)
  | f + 1, some row, cache =>
    match cacheLookup cache row.id with
    | some v => some (some v, cache)
    | none =>
      match row.parentId with
      | none => some (some row.id, (row.id, row.id) :: cache)
      | some pid =>
        if pid = 0 then some (some row.id, (row.id, row.id) :: cache)
        else
          match findRootIdF byId f (byId pid) cache with
          | none => none
          | some (v, cache') =>
            let rootId := v.getD pid
            some (some rootId, (row.id, rootId) :: cache')

/-- The two-row cyclic input: row 1 points to row 2 and back. -/
def cycleRowA : ParentRow := ⟨1, some 2⟩

/-- The second row of the cycle. -/
def cycleRowB : ParentRow := ⟨2, some 1⟩

/-- The byId map of the cyclic input. -/
def cycleById (i : Int) : Option ParentRow :=
  if i = 1 then some cycleRowA else if i = 2 then some cycleRowB else none

theorem findRootIdF_cycle_aux :
    ∀ (f : Nat) (cache : List (Int × Int)),
      cacheLookup cache 1 = none → cacheLookup cache 2 = none →
      findRootIdF cycleById f (some cycleRowA) cache = none
      ∧ findRootIdF cycleById f (some cycleRowB) cache = none := by
  intro f
  induction f with
  | zero => intro cache _ _; exact ⟨rfl, rfl⟩
  | succ f ih =>
    intro cache h1 h2
    constructor
    · rw [findRootIdF]
      show (match cacheLookup cache cycleRowA.id with
        | some v => some (some v, cache)
        | none => _) = none
      rw [show cycleRowA.id = 1 from rfl, h1]
      simp only []
      have : cycleById 2 = some cycleRowB := rfl
      rw [show cycleRowA.parentId = some 2 from rfl]
      simp only [this, if_neg (by omega : ¬ (2 : Int) = 0)]
      rw [(ih cache h1 h2).2]
    · rw [findRootIdF]
      show (match cacheLookup cache cycleRowB.id with
        | some v => some (some v, cache)
        | none => _) = none
      rw [show cycleRowB.id = 2 from rfl, h2]
      simp only []
      have : cycleById 1 = some cycleRowA := rfl
      rw [show cycleRowB.parentId = some 1 from rfl]
      simp only [this, if_neg (by omega : ¬ (1 : Int) = 0)]
      rw [(ih cache h1 h2).1]

/-- C9 (refuting the parentId variant): on the cyclic two-row input, the
recursive findRootId does not return within any recursion depth — the
resolution walk hangs the process, because the memo cache is only written
after the recursive call returns. -/
theorem C9_findRootId_cycle_diverges :
    ∀ f : Nat, findRootIdF cycleById f (some cycleRowA) [] = none :=
  fun f => (findRootIdF_cycle_aux f [] rfl rfl).1

end CustomsExplorer
